import Mathlib

/-
Verification of the circular-genome simulator (`src/genome.py`): two storage
variants, `ListGenome` (Python list) and `LinkedListGenome` (doubly linked
circular list with a sentinel), sharing one interface of operations
`insert_te`, `copy_te`, `disable_te`, `active_tes`, `__len__`, `__str__`.
The state of each variant is embedded shallowly: the cell storage as a
`List Char` (the linked variant keeps, as the source does, a separate length
counter), the `te_identities` dict as an insertion-ordered association list,
and the id counter as an integer.  Fallible methods return `Except PyErr`.
-/

set_option linter.unusedVariables false

namespace TEG

/-- Character at index `i` of a list of cells, with `'?'` for an
out-of-range access (which no reachable evaluation performs). -/
def charAt : List Char → Nat → Char
  | [], _ => '?'
  | c :: _, 0 => c
  | _ :: cs, n + 1 => charAt cs n

/-- Overwrite with `c` every cell whose index `j` (the head of the list
having index `i`) satisfies `s ≤ j < e`.  Shared backbone of the two
variants' range-overwriting code. -/
def setRangeAux (c : Char) (s e : Int) : Int → List Char → List Char
  | _, [] => []
  | i, x :: xs => (if s ≤ i ∧ i < e then c else x) :: setRangeAux c s e (i + 1) xs

/-- Model of the list variant's slice assignment
`self.genome[start:end] = (end - start) * ["x"]`: overwrite the cells of the
half-open range `[s, e)` with `'x'`.  Faithful to the Python slice assignment
whenever `0 ≤ s ≤ e ≤ len(genome)`, which holds for every range the registry
contains in a reachable state. -/
def sliceAssignX (g : List Char) (s e : Int) : List Char :=
  setRangeAux 'x' s e 0 g

/-- Model of the cell walk in `LinkedListGenome.disable_te`: starting from
the cell `start` links after the head (no steps when `start < 0`, since
Python's `range` of a negative number is empty), write `'x'` into
`end - start` consecutive cells.  Faithful to the source as long as the walk
does not run past the last cell back into the sentinel, which holds for
every registry range of a reachable state. -/
def linkAssignX (g : List Char) (s e : Int) : List Char :=
  setRangeAux 'x' (s.toNat : Int) ((s.toNat : Int) + ((e - s).toNat : Int)) 0 g

/-- The `te_identities` dict of either variant: TE id mapped to the
half-open range `(start, end)`.  Python dicts preserve insertion order, so
the dict is embedded as an insertion-ordered association list. -/
abbrev TEReg := List (Int × Int × Int)

/-- Dict lookup `d[key]` (as an `Option`; `none` is Python's `KeyError`). -/
def lookupTE : TEReg → Int → Option (Int × Int)
  | [], _ => none
  | (i, s, e) :: r, id => if i = id then some (s, e) else lookupTE r id

/-- Dict removal `d.pop(key)`: drop the entry of the given key. -/
def eraseTE : TEReg → Int → TEReg
  | [], _ => []
  | (i, s, e) :: r, id => if i = id then r else (i, s, e) :: eraseTE r id

/-- Dict assignment `d[key] = value`: overwrite in place when the key is
present (Python keeps the key's position), append otherwise. -/
def updateTE : TEReg → Int → Int × Int → TEReg
  | [], id, v => [(id, v.1, v.2)]
  | (i, s, e) :: r, id, v =>
    if i = id then (id, v.1, v.2) :: r else (i, s, e) :: updateTE r id v

/-- The ids of a registry, in dict order (`list(d.keys())`). -/
def idsOf (r : TEReg) : List Int := r.map (fun en => en.1)

/-- The Python exceptions the genome methods can raise. -/
inductive PyErr where
  | valueError
  | zeroDivisionError
  | keyError
deriving DecidableEq

/-- The loop `for id, te_range in active_tes:` shared by both `insert_te`
methods: it walks a snapshot of the registry taken before the loop, disables
every TE whose range contains `pos` (overwriting its cells through `mark`,
the variant's way of writing `'x'`, and popping it from the live registry),
and shifts by `le` every TE whose start lies strictly beyond `pos`. -/
def teLoop (mark : List Char → Int → Int → List Char) (pos le : Int) :
    TEReg → List Char × TEReg → List Char × TEReg
  | [], st => st
  | (id, s, e) :: rest, (gen, reg) =>
    if s ≤ pos ∧ pos < e then
      teLoop mark pos le rest (mark gen s e, eraseTE reg id)
    else if s > pos then
      teLoop mark pos le rest (gen, updateTE reg id (s + le, e + le))
    else
      teLoop mark pos le rest (gen, reg)

/-- State of `ListGenome`: the Python list of one-character strings, the
registry dict, and the id counter. -/
structure ListGenome where
  genome : List Char
  te_identities : TEReg
  te_count : Int
deriving DecidableEq

/-- `ListGenome.__init__(n)`. -/
def ListGenome.mkNew (n : Nat) : ListGenome :=
  { genome := List.replicate n '-', te_identities := [], te_count := 0 }

/-- `ListGenome.insert_te(pos, length)`.  Raises `ValueError` when
`pos > len(self.genome)`; then circularizes `pos` by `%` (Python's modulo on
a positive divisor equals `Int.emod`; a genome of length zero raises
`ZeroDivisionError` here); runs the collision/shift loop over a snapshot of
the registry; finally issues the next id, registers `(pos, pos + length)`,
and splices `length` cells `'A'` at `pos` (Python's `length * ["A"]` is
empty for a negative `length`, hence `Int.toNat`). -/
def ListGenome.insert_te (g : ListGenome) (pos length : Int) :
    Except PyErr (ListGenome × Int) :=
  if pos > (g.genome.length : Int) then .error .valueError
  else if g.genome.length = 0 then .error .zeroDivisionError
  else
    let p := pos % (g.genome.length : Int)
    let st := teLoop sliceAssignX p length g.te_identities (g.genome, g.te_identities)
    let cnt := g.te_count + 1
    .ok ({ genome :=
             st.1.take p.toNat ++ List.replicate length.toNat 'A' ++ st.1.drop p.toNat,
           te_identities := updateTE st.2 cnt (p, p + length),
           te_count := cnt }, cnt)

/-- `ListGenome.copy_te(te, offset)`: `None` (and no mutation) when `te` is
not a key of the registry; otherwise delegates to
`insert_te(start + offset, end - start)`, propagating any exception. -/
def ListGenome.copy_te (g : ListGenome) (te offset : Int) :
    Except PyErr (ListGenome × Option Int) :=
  match lookupTE g.te_identities te with
  | none => .ok (g, none)
  | some (s, e) => (g.insert_te (s + offset) (e - s)).map (fun r => (r.1, some r.2))

/-- `ListGenome.disable_te(te)`: the guard `if self.te_identities[te]:`
raises `KeyError` for a key not in the dict (a registry value is a nonempty
tuple, hence always truthy); otherwise the entry is popped and its range
overwritten with `'x'`. -/
def ListGenome.disable_te (g : ListGenome) (te : Int) : Except PyErr ListGenome :=
  match lookupTE g.te_identities te with
  | none => .error .keyError
  | some (s, e) =>
    .ok { g with te_identities := eraseTE g.te_identities te,
                 genome := sliceAssignX g.genome s e }

/-- `ListGenome.active_tes()`: `list(self.te_identities.keys())`. -/
def ListGenome.active_tes (g : ListGenome) : List Int :=
  idsOf g.te_identities

/-- `ListGenome.__len__()`. -/
def ListGenome.len (g : ListGenome) : Int := (g.genome.length : Int)

/-- `ListGenome.__str__()`. -/
def ListGenome.render (g : ListGenome) : String := String.mk g.genome

/-- State of `LinkedListGenome`: `cells` is the ring read clockwise from
`head.next` (the sentinel omitted), `length` the separately maintained
`self.length` counter, plus the registry dict and the id counter. -/
structure LinkedListGenome where
  cells : List Char
  length : Int
  te_identities : TEReg
  te_count : Int
deriving DecidableEq

/-- `LinkedListGenome.__init__(n)`. -/
def LinkedListGenome.mkNew (n : Nat) : LinkedListGenome :=
  { cells := List.replicate n '-', length := (n : Int),
    te_identities := [], te_count := 0 }

/-- Model of the insertion walk of `LinkedListGenome.insert_te`: start at
`head.next`, advance `pos - 1` links (none when `pos ≤ 1`, since Python's
`range` of a non-positive number is empty), then splice a run of cells `'A'`
after the link reached.  With no cells the walk stays on the sentinel and
the run lands at the front; otherwise it lands after the cell of index
`max (pos - 1) 0`, i.e. at index `max (pos - 1) 0 + 1` — in particular at
index 1, not 0, when `pos = 0`.  Faithful to the source as long as the walk
does not pass the sentinel again, i.e. `pos ≤ len(cells)`, which the
out-of-range guard gives in every reachable state. -/
def linkSplice (cells : List Char) (pos : Int) (le : Nat) : List Char :=
  if cells.isEmpty then List.replicate le 'A'
  else
    cells.take ((pos - 1).toNat + 1) ++ List.replicate le 'A' ++
      cells.drop ((pos - 1).toNat + 1)

/-- `LinkedListGenome.insert_te(pos, length)`.  Raises `ValueError` when
`pos > self.length`; unlike the list variant it performs no circularization
of `pos`.  Runs the same collision/shift loop (its collision branch calls
`disable_te`, which here walks and overwrites the cells), then issues the
next id, registers `(pos, pos + length)`, splices the `'A'` run via the
insertion walk, and adds `length` to the counter. -/
def LinkedListGenome.insert_te (g : LinkedListGenome) (pos length : Int) :
    Except PyErr (LinkedListGenome × Int) :=
  if pos > g.length then .error .valueError
  else
    let st := teLoop linkAssignX pos length g.te_identities (g.cells, g.te_identities)
    let cnt := g.te_count + 1
    .ok ({ cells := linkSplice st.1 pos length.toNat,
           length := g.length + length,
           te_identities := updateTE st.2 cnt (pos, pos + length),
           te_count := cnt }, cnt)

/-- `LinkedListGenome.copy_te(te, offset)`: `None` and no mutation when `te`
is not a registry key; otherwise the three-way branch of the source —
positive offset delegates directly, a target `start + offset < 0` is first
remapped to `self.length + start + offset`, any other case delegates
directly — each propagating exceptions from `insert_te`. -/
def LinkedListGenome.copy_te (g : LinkedListGenome) (te offset : Int) :
    Except PyErr (LinkedListGenome × Option Int) :=
  match lookupTE g.te_identities te with
  | none => .ok (g, none)
  | some (s, e) =>
    if offset > 0 then
      (g.insert_te (s + offset) (e - s)).map (fun r => (r.1, some r.2))
    else if s + offset < 0 then
      (g.insert_te (g.length + s + offset) (e - s)).map (fun r => (r.1, some r.2))
    else
      (g.insert_te (s + offset) (e - s)).map (fun r => (r.1, some r.2))

/-- `LinkedListGenome.disable_te(te)`: the guard `if self.te_identities[te]:`
raises `KeyError` for a key not in the dict; otherwise pops the entry and
overwrites its cells by the walk modelled by `linkAssignX`. -/
def LinkedListGenome.disable_te (g : LinkedListGenome) (te : Int) :
    Except PyErr LinkedListGenome :=
  match lookupTE g.te_identities te with
  | none => .error .keyError
  | some (s, e) =>
    .ok { g with te_identities := eraseTE g.te_identities te,
                 cells := linkAssignX g.cells s e }

/-- `LinkedListGenome.active_tes()`. -/
def LinkedListGenome.active_tes (g : LinkedListGenome) : List Int :=
  idsOf g.te_identities

/-- `LinkedListGenome.__len__()`: the stored counter. -/
def LinkedListGenome.len (g : LinkedListGenome) : Int := g.length

/-- `LinkedListGenome.__str__()`: walk `self.length` cells from `head.next`
and join them.  Faithful while the counter does not exceed the cell count
(true in every reachable state); a negative counter yields the empty walk,
as in the source. -/
def LinkedListGenome.render (g : LinkedListGenome) : String :=
  String.mk (g.cells.take g.length.toNat)

/-- One call of the shared genome interface, as issued by a driver script.
TE lengths are natural numbers (a transposable element occupies a run of
cells); positions, ids and offsets are arbitrary integers. -/
inductive GOp where
  | insert (pos : Int) (le : Nat)
  | copy (te : Int) (off : Int)
  | disable (te : Int)
deriving DecidableEq

/-- Run one scripted operation on the list variant.  A call that raises
leaves the genome unchanged (in the source no mutation precedes any of the
raise points). -/
def ListGenome.stepOp (g : ListGenome) : GOp → ListGenome
  | .insert pos le =>
    match g.insert_te pos (le : Int) with
    | .ok r => r.1
    | .error _ => g
  | .copy te off =>
    match g.copy_te te off with
    | .ok r => r.1
    | .error _ => g
  | .disable te =>
    match g.disable_te te with
    | .ok g2 => g2
    | .error _ => g

/-- Run one scripted operation on the linked variant; raises leave the
genome unchanged, as no mutation precedes any raise point. -/
def LinkedListGenome.stepOp (g : LinkedListGenome) : GOp → LinkedListGenome
  | .insert pos le =>
    match g.insert_te pos (le : Int) with
    | .ok r => r.1
    | .error _ => g
  | .copy te off =>
    match g.copy_te te off with
    | .ok r => r.1
    | .error _ => g
  | .disable te =>
    match g.disable_te te with
    | .ok g2 => g2
    | .error _ => g

/-- The list variant after a whole script, starting from `ListGenome(n)`. -/
def runList (n : Nat) (ops : List GOp) : ListGenome :=
  ops.foldl ListGenome.stepOp (ListGenome.mkNew n)

/-- The linked variant after a whole script, starting from
`LinkedListGenome(n)`. -/
def runLinked (n : Nat) (ops : List GOp) : LinkedListGenome :=
  ops.foldl LinkedListGenome.stepOp (LinkedListGenome.mkNew n)

/-- Well-formedness of the list variant's state, maintained by every
reachable state: distinct ids, each issued by the counter, and ranges that
are nonempty, inside the genome, and pairwise disjoint. -/
def ListGenome.WF (g : ListGenome) : Prop :=
  (idsOf g.te_identities).Nodup ∧
  (∀ en ∈ g.te_identities, 1 ≤ en.1 ∧ en.1 ≤ g.te_count ∧
      0 ≤ en.2.1 ∧ en.2.1 < en.2.2 ∧ en.2.2 ≤ (g.genome.length : Int)) ∧
  g.te_identities.Pairwise (fun a b => a.2.2 ≤ b.2.1 ∨ b.2.2 ≤ a.2.1)

/-- Well-formedness of the linked variant's state, maintained by every
reachable state: the counter matches the cell count, ids are distinct and
issued by the counter, ranges are nonempty, inside the cells, and pairwise
disjoint. -/
def LinkedListGenome.WF (g : LinkedListGenome) : Prop :=
  g.length = (g.cells.length : Int) ∧
  (idsOf g.te_identities).Nodup ∧
  (∀ en ∈ g.te_identities, 1 ≤ en.1 ∧ en.1 ≤ g.te_count ∧
      0 ≤ en.2.1 ∧ en.2.1 < en.2.2 ∧ en.2.2 ≤ (g.cells.length : Int)) ∧
  g.te_identities.Pairwise (fun a b => a.2.2 ≤ b.2.1 ∨ b.2.2 ≤ a.2.1)

instance (g : ListGenome) : Decidable g.WF := by
  unfold ListGenome.WF
  infer_instance

instance (g : LinkedListGenome) : Decidable g.WF := by
  unfold LinkedListGenome.WF
  infer_instance

/-- The effect of one pass of the collision/shift loop on the live
registry, as a function of the snapshot entry processed. -/
def ruleFn (pos le : Int) (en : Int × Int × Int) (r : TEReg) : TEReg :=
  if en.2.1 ≤ pos ∧ pos < en.2.2 then eraseTE r en.1
  else if en.2.1 > pos then updateTE r en.1 (en.2.1 + le, en.2.2 + le)
  else r

/-- The part of the linked variant's well-formedness needed for the length
bookkeeping: the counter matches the cell count, is non-negative, and every
registered range is non-descending. -/
def LinkedListGenome.Inv (g : LinkedListGenome) : Prop :=
  g.length = (g.cells.length : Int) ∧ 0 ≤ g.length ∧
  ∀ en ∈ g.te_identities, en.2.1 ≤ en.2.2

theorem length_setRangeAux (c : Char) (s e : Int) :
    ∀ (i : Int) (g : List Char), (setRangeAux c s e i g).length = g.length := by
  intro i g
  induction g generalizing i with
  | nil => rfl
  | cons x xs ih => simp [setRangeAux, ih]

theorem charAt_setRangeAux (c : Char) (s e : Int) :
    ∀ (g : List Char) (i : Int) (j : Nat), j < g.length →
      charAt (setRangeAux c s e i g) j =
        if s ≤ i + (j : Int) ∧ i + (j : Int) < e then c else charAt g j := by
  intro g
  induction g with
  | nil => intro i j h; simp at h
  | cons x xs ih =>
    intro i j h
    cases j with
    | zero => simp [setRangeAux, charAt]
    | succ m =>
      simp only [setRangeAux, charAt]
      rw [ih (i + 1) m (by simp [List.length_cons] at h; omega)]
      have hc : i + 1 + (m : Int) = i + ((m + 1 : Nat) : Int) := by push_cast; ring
      rw [hc]

theorem charAt_sliceAssignX (g : List Char) (s e : Int) (j : Nat)
    (hj : j < g.length) :
    charAt (sliceAssignX g s e) j =
      if s ≤ (j : Int) ∧ (j : Int) < e then 'x' else charAt g j := by
  unfold sliceAssignX
  rw [charAt_setRangeAux _ _ _ g 0 j hj]
  simp

theorem charAt_linkAssignX (g : List Char) (s e : Int) (hs : 0 ≤ s)
    (hse : s ≤ e) (j : Nat) (hj : j < g.length) :
    charAt (linkAssignX g s e) j =
      if s ≤ (j : Int) ∧ (j : Int) < e then 'x' else charAt g j := by
  unfold linkAssignX
  rw [charAt_setRangeAux _ _ _ g 0 j hj]
  have h1 : (s.toNat : Int) = s := Int.toNat_of_nonneg hs
  have h2 : ((e - s).toNat : Int) = e - s := Int.toNat_of_nonneg (by omega)
  rw [h1, h2]
  have h3 : s + (e - s) = e := by ring
  simp [h3]

theorem charAt_append_left :
    ∀ (l1 l2 : List Char) (j : Nat), j < l1.length →
      charAt (l1 ++ l2) j = charAt l1 j := by
  intro l1
  induction l1 with
  | nil => intro l2 j h; simp at h
  | cons x xs ih =>
    intro l2 j h
    cases j with
    | zero => rfl
    | succ m => exact ih l2 m (by simp [List.length_cons] at h; omega)

theorem charAt_append_right :
    ∀ (l1 l2 : List Char) (j : Nat), l1.length ≤ j →
      charAt (l1 ++ l2) j = charAt l2 (j - l1.length) := by
  intro l1
  induction l1 with
  | nil => intro l2 j h; simp
  | cons x xs ih =>
    intro l2 j h
    cases j with
    | zero => simp at h
    | succ m =>
      have := ih l2 m (by simp [List.length_cons] at h; omega)
      simpa [charAt, List.length_cons] using this

theorem charAt_replicate (n : Nat) (c : Char) :
    ∀ (j : Nat), j < n → charAt (List.replicate n c) j = c := by
  induction n with
  | zero => intro j h; omega
  | succ m ih =>
    intro j h
    cases j with
    | zero => rfl
    | succ k => exact ih k (by omega)

theorem charAt_take :
    ∀ (l : List Char) (n j : Nat), j < n → charAt (l.take n) j = charAt l j := by
  intro l
  induction l with
  | nil => intro n j h; simp [charAt]
  | cons x xs ih =>
    intro n j h
    cases n with
    | zero => omega
    | succ m =>
      cases j with
      | zero => rfl
      | succ k => exact ih m k (by omega)

theorem charAt_drop :
    ∀ (n : Nat) (l : List Char) (j : Nat), charAt (l.drop n) j = charAt l (n + j) := by
  intro n
  induction n with
  | zero => intro l j; simp
  | succ m ih =>
    intro l j
    cases l with
    | nil => simp [charAt]
    | cons x xs =>
      have := ih xs j
      simpa [charAt, Nat.succ_add] using this

theorem idsOf_cons (en : Int × Int × Int) (r : TEReg) :
    idsOf (en :: r) = en.1 :: idsOf r := rfl

theorem lookup_eraseTE_ne (r : TEReg) (i j : Int) (h : j ≠ i) :
    lookupTE (eraseTE r i) j = lookupTE r j := by
  induction r with
  | nil => rfl
  | cons en rest ih =>
    obtain ⟨k, s, e⟩ := en
    by_cases hk : k = i
    · subst hk
      have hkj : ¬ (k = j) := fun hh => h hh.symm
      simp [eraseTE, lookupTE, hkj]
    · simp [eraseTE, hk, lookupTE, ih]

theorem lookup_updateTE_ne (r : TEReg) (i j : Int) (v : Int × Int) (h : j ≠ i) :
    lookupTE (updateTE r i v) j = lookupTE r j := by
  have hij : ¬ (i = j) := fun hh => h hh.symm
  induction r with
  | nil => simp [updateTE, lookupTE, hij]
  | cons en rest ih =>
    obtain ⟨k, s, e⟩ := en
    by_cases hk : k = i
    · subst hk
      simp [updateTE, lookupTE, hij]
    · simp [updateTE, hk, lookupTE, ih]

theorem lookup_updateTE_self (r : TEReg) (i : Int) (v : Int × Int) :
    lookupTE (updateTE r i v) i = some v := by
  induction r with
  | nil => simp [updateTE, lookupTE]
  | cons en rest ih =>
    obtain ⟨k, s, e⟩ := en
    by_cases hk : k = i
    · simp [updateTE, hk, lookupTE]
    · simp [updateTE, hk, lookupTE, ih]

theorem lookup_eq_none_iff {r : TEReg} {j : Int} :
    lookupTE r j = none ↔ j ∉ idsOf r := by
  induction r with
  | nil => simp [lookupTE, idsOf]
  | cons en rest ih =>
    obtain ⟨k, s, e⟩ := en
    rw [idsOf_cons]
    by_cases hk : k = j
    · subst hk
      simp [lookupTE]
    · simp only [lookupTE, if_neg hk, List.mem_cons]
      rw [ih]
      constructor
      · intro hn hc
        rcases hc with hc | hc
        · exact hk hc.symm
        · exact hn hc
      · intro hn hc
        exact hn (Or.inr hc)

theorem mem_idsOf_of_lookup {r : TEReg} {j : Int} {v : Int × Int}
    (h : lookupTE r j = some v) : j ∈ idsOf r := by
  by_contra hc
  rw [← lookup_eq_none_iff] at hc
  rw [h] at hc
  exact Option.noConfusion hc

theorem mem_idsOf_eraseTE {r : TEReg} {i j : Int}
    (h : j ∈ idsOf (eraseTE r i)) : j ∈ idsOf r := by
  induction r with
  | nil => exact h
  | cons en rest ih =>
    obtain ⟨k, s, e⟩ := en
    rw [idsOf_cons, List.mem_cons]
    by_cases hk : k = i
    · rw [eraseTE, if_pos hk] at h
      exact Or.inr h
    · rw [eraseTE, if_neg hk, idsOf_cons, List.mem_cons] at h
      rcases h with h | h
      · exact Or.inl h
      · exact Or.inr (ih h)

theorem mem_idsOf_updateTE {r : TEReg} {i j : Int} {v : Int × Int}
    (h : j ∈ idsOf (updateTE r i v)) : j ∈ idsOf r ∨ j = i := by
  induction r with
  | nil =>
    rw [updateTE, idsOf_cons, List.mem_cons] at h
    rcases h with h | h
    · exact Or.inr h
    · exact absurd h (List.not_mem_nil j)
  | cons en rest ih =>
    obtain ⟨k, s, e⟩ := en
    rw [idsOf_cons, List.mem_cons]
    by_cases hk : k = i
    · rw [updateTE, if_pos hk, idsOf_cons, List.mem_cons] at h
      rcases h with h | h
      · exact Or.inr h
      · exact Or.inl (Or.inr h)
    · rw [updateTE, if_neg hk, idsOf_cons, List.mem_cons] at h
      rcases h with h | h
      · exact Or.inl (Or.inl h)
      · rcases ih h with h2 | h2
        · exact Or.inl (Or.inr h2)
        · exact Or.inr h2

theorem nodup_idsOf_eraseTE {r : TEReg} {i : Int}
    (h : (idsOf r).Nodup) : (idsOf (eraseTE r i)).Nodup := by
  induction r with
  | nil => exact h
  | cons en rest ih =>
    obtain ⟨k, s, e⟩ := en
    rw [idsOf_cons, List.nodup_cons] at h
    by_cases hk : k = i
    · rw [eraseTE, if_pos hk]
      exact h.2
    · rw [eraseTE, if_neg hk, idsOf_cons, List.nodup_cons]
      exact ⟨fun hm => h.1 (mem_idsOf_eraseTE hm), ih h.2⟩

theorem nodup_idsOf_updateTE {r : TEReg} {i : Int} {v : Int × Int}
    (h : (idsOf r).Nodup) : (idsOf (updateTE r i v)).Nodup := by
  induction r with
  | nil =>
    rw [updateTE, idsOf_cons, List.nodup_cons]
    exact ⟨List.not_mem_nil i, List.nodup_nil⟩
  | cons en rest ih =>
    obtain ⟨k, s, e⟩ := en
    rw [idsOf_cons, List.nodup_cons] at h
    by_cases hk : k = i
    · rw [updateTE, if_pos hk, idsOf_cons, List.nodup_cons]
      exact ⟨hk ▸ h.1, h.2⟩
    · rw [updateTE, if_neg hk, idsOf_cons, List.nodup_cons]
      refine ⟨fun hm => ?_, ih h.2⟩
      rcases mem_idsOf_updateTE hm with h2 | h2
      · exact h.1 h2
      · exact hk h2

theorem lookup_of_mem_nodup {r : TEReg} {i s e : Int}
    (hm : (i, s, e) ∈ r) (h : (idsOf r).Nodup) : lookupTE r i = some (s, e) := by
  induction r with
  | nil => exact absurd hm (List.not_mem_nil _)
  | cons en rest ih =>
    obtain ⟨k, s2, e2⟩ := en
    rw [idsOf_cons, List.nodup_cons] at h
    rcases List.mem_cons.mp hm with heq | htl
    · injection heq with hk hrest
      injection hrest with hs he
      subst hk; subst hs; subst he
      simp [lookupTE]
    · by_cases hk : k = i
      · exfalso
        subst hk
        exact h.1 (List.mem_map.mpr ⟨(k, s, e), htl, rfl⟩)
      · rw [lookupTE, if_neg hk]
        exact ih htl h.2

theorem lookup_eraseTE_self {r : TEReg} {i : Int}
    (h : (idsOf r).Nodup) : lookupTE (eraseTE r i) i = none := by
  induction r with
  | nil => rfl
  | cons en rest ih =>
    obtain ⟨k, s, e⟩ := en
    rw [idsOf_cons, List.nodup_cons] at h
    by_cases hk : k = i
    · rw [eraseTE, if_pos hk]
      exact lookup_eq_none_iff.mpr (hk ▸ h.1)
    · rw [eraseTE, if_neg hk, lookupTE, if_neg hk]
      exact ih h.2

theorem mem_eraseTE {r : TEReg} {i : Int} {en : Int × Int × Int}
    (h : en ∈ eraseTE r i) : en ∈ r := by
  induction r with
  | nil => exact h
  | cons hd rest ih =>
    obtain ⟨k, s, e⟩ := hd
    by_cases hk : k = i
    · rw [eraseTE, if_pos hk] at h
      exact List.mem_cons_of_mem _ h
    · rw [eraseTE, if_neg hk] at h
      rcases List.mem_cons.mp h with heq | htl
      · exact heq ▸ List.mem_cons_self _ _
      · exact List.mem_cons_of_mem _ (ih htl)

theorem mem_updateTE {r : TEReg} {i : Int} {v : Int × Int} {en : Int × Int × Int}
    (h : en ∈ updateTE r i v) : en ∈ r ∨ en = (i, v.1, v.2) := by
  induction r with
  | nil =>
    rw [updateTE] at h
    rcases List.mem_cons.mp h with heq | htl
    · exact Or.inr heq
    · exact absurd htl (List.not_mem_nil _)
  | cons hd rest ih =>
    obtain ⟨k, s, e⟩ := hd
    by_cases hk : k = i
    · rw [updateTE, if_pos hk] at h
      rcases List.mem_cons.mp h with heq | htl
      · exact Or.inr heq
      · exact Or.inl (List.mem_cons_of_mem _ htl)
    · rw [updateTE, if_neg hk] at h
      rcases List.mem_cons.mp h with heq | htl
      · exact Or.inl (heq ▸ List.mem_cons_self _ _)
      · rcases ih htl with h2 | h2
        · exact Or.inl (List.mem_cons_of_mem _ h2)
        · exact Or.inr h2

theorem ruleFn_eq (pos le id s e : Int) (r : TEReg) :
    ruleFn pos le (id, s, e) r =
      if s ≤ pos ∧ pos < e then eraseTE r id
      else if s > pos then updateTE r id (s + le, e + le)
      else r := rfl

theorem teLoop_snd (mark : List Char → Int → Int → List Char) (pos le : Int) :
    ∀ (snap : TEReg) (gen : List Char) (reg : TEReg),
      (teLoop mark pos le snap (gen, reg)).2 =
        snap.foldl (fun r en => ruleFn pos le en r) reg := by
  intro snap
  induction snap with
  | nil => intro gen reg; rfl
  | cons en rest ih =>
    intro gen reg
    obtain ⟨id, s, e⟩ := en
    rw [List.foldl_cons]
    by_cases h1 : s ≤ pos ∧ pos < e
    · simp only [teLoop, if_pos h1]
      rw [ih]
      congr 1
      rw [ruleFn_eq, if_pos h1]
    · by_cases h2 : s > pos
      · simp only [teLoop, if_neg h1, if_pos h2]
        rw [ih]
        congr 1
        rw [ruleFn_eq, if_neg h1, if_pos h2]
      · simp only [teLoop, if_neg h1, if_neg h2]
        rw [ih]
        congr 1
        rw [ruleFn_eq, if_neg h1, if_neg h2]

theorem teLoop_fst_no_collision (mark : List Char → Int → Int → List Char)
    (pos le : Int) :
    ∀ (snap : TEReg) (gen : List Char) (reg : TEReg),
      (∀ en ∈ snap, ¬ (en.2.1 ≤ pos ∧ pos < en.2.2)) →
      (teLoop mark pos le snap (gen, reg)).1 = gen := by
  intro snap
  induction snap with
  | nil => intro gen reg h; rfl
  | cons en rest ih =>
    intro gen reg h
    obtain ⟨id, s, e⟩ := en
    have h1 : ¬ (s ≤ pos ∧ pos < e) := h (id, s, e) (List.mem_cons_self _ _)
    by_cases h2 : s > pos
    · simp only [teLoop, if_neg h1, if_pos h2]
      exact ih gen _ (fun en hm => h en (List.mem_cons_of_mem _ hm))
    · simp only [teLoop, if_neg h1, if_neg h2]
      exact ih gen _ (fun en hm => h en (List.mem_cons_of_mem _ hm))

theorem teLoop_append (mark : List Char → Int → Int → List Char) (pos le : Int) :
    ∀ (l1 l2 : TEReg) (st : List Char × TEReg),
      teLoop mark pos le (l1 ++ l2) st =
        teLoop mark pos le l2 (teLoop mark pos le l1 st) := by
  intro l1
  induction l1 with
  | nil => intro l2 st; rfl
  | cons en rest ih =>
    intro l2 st
    obtain ⟨id, s, e⟩ := en
    obtain ⟨gen, reg⟩ := st
    by_cases h1 : s ≤ pos ∧ pos < e
    · simp only [List.cons_append, teLoop, if_pos h1]
      exact ih l2 _
    · by_cases h2 : s > pos
      · simp only [List.cons_append, teLoop, if_neg h1, if_pos h2]
        exact ih l2 _
      · simp only [List.cons_append, teLoop, if_neg h1, if_neg h2]
        exact ih l2 _

theorem teLoop_fst_single (mark : List Char → Int → Int → List Char)
    (pos le : Int) (pre post : TEReg) (id s e : Int) (gen : List Char)
    (reg : TEReg)
    (hpre : ∀ en ∈ pre, ¬ (en.2.1 ≤ pos ∧ pos < en.2.2))
    (hpost : ∀ en ∈ post, ¬ (en.2.1 ≤ pos ∧ pos < en.2.2))
    (hc : s ≤ pos ∧ pos < e) :
    (teLoop mark pos le (pre ++ (id, s, e) :: post) (gen, reg)).1 =
      mark gen s e := by
  rw [teLoop_append]
  rcases hpair : teLoop mark pos le pre (gen, reg) with ⟨g1, r1⟩
  have h1 : g1 = gen := by
    have h2 := teLoop_fst_no_collision mark pos le pre gen reg hpre
    rw [hpair] at h2
    exact h2
  subst h1
  simp only [teLoop, if_pos hc]
  exact teLoop_fst_no_collision mark pos le post _ _ hpost

theorem foldl_ruleFn_lookup_ne (pos le : Int) :
    ∀ (snap reg : TEReg) (j : Int), (∀ en ∈ snap, en.1 ≠ j) →
      lookupTE (snap.foldl (fun r en => ruleFn pos le en r) reg) j =
        lookupTE reg j := by
  intro snap
  induction snap with
  | nil => intro reg j h; rfl
  | cons en rest ih =>
    intro reg j h
    rw [List.foldl_cons, ih _ j (fun en hm => h en (List.mem_cons_of_mem _ hm))]
    have hne : j ≠ en.1 := Ne.symm (h en (List.mem_cons_self _ _))
    unfold ruleFn
    split_ifs with hA hB
    · exact lookup_eraseTE_ne reg en.1 j hne
    · exact lookup_updateTE_ne reg en.1 j _ hne
    · rfl

theorem foldl_ruleFn_nodup (pos le : Int) :
    ∀ (snap reg : TEReg), (idsOf reg).Nodup →
      (idsOf (snap.foldl (fun r en => ruleFn pos le en r) reg)).Nodup := by
  intro snap
  induction snap with
  | nil => intro reg h; exact h
  | cons en rest ih =>
    intro reg h
    rw [List.foldl_cons]
    apply ih
    unfold ruleFn
    split_ifs
    · exact nodup_idsOf_eraseTE h
    · exact nodup_idsOf_updateTE h
    · exact h

theorem foldl_ruleFn_ranges (pos le : Int) :
    ∀ (snap reg : TEReg), (∀ en ∈ snap, en.2.1 ≤ en.2.2) →
      (∀ en ∈ reg, en.2.1 ≤ en.2.2) →
      ∀ en ∈ snap.foldl (fun r en => ruleFn pos le en r) reg,
        en.2.1 ≤ en.2.2 := by
  intro snap
  induction snap with
  | nil => intro reg hs h; exact h
  | cons en rest ih =>
    intro reg hs h
    rw [List.foldl_cons]
    apply ih _ (fun en2 hm => hs en2 (List.mem_cons_of_mem _ hm))
    intro en2 hm
    unfold ruleFn at hm
    split_ifs at hm with hA hB
    · exact h en2 (mem_eraseTE hm)
    · rcases mem_updateTE hm with h2 | h2
      · exact h en2 h2
      · rw [h2]
        have := hs en (List.mem_cons_self _ _)
        dsimp only
        omega
    · exact h en2 hm

theorem foldl_ruleFn_lookup_self (pos le : Int) (snap : TEReg) (id s e : Int)
    (hmem : (id, s, e) ∈ snap) (hnd : (idsOf snap).Nodup) :
    lookupTE (snap.foldl (fun r en => ruleFn pos le en r) snap) id =
      if s ≤ pos ∧ pos < e then none
      else if s > pos then some (s + le, e + le)
      else some (s, e) := by
  have hnd0 := hnd
  obtain ⟨pre, post, hsplit⟩ := List.append_of_mem hmem
  subst hsplit
  have hids : idsOf (pre ++ (id, s, e) :: post) = idsOf pre ++ id :: idsOf post := by
    simp [idsOf]
  rw [hids, List.nodup_append] at hnd
  obtain ⟨hndpre, hndpost, hdisj⟩ := hnd
  rw [List.nodup_cons] at hndpost
  have hpreids : ∀ en ∈ pre, en.1 ≠ id := by
    intro en hm heq
    apply hdisj (List.mem_map.mpr ⟨en, hm, rfl⟩)
    rw [heq]
    exact List.mem_cons_self _ _
  have hpostids : ∀ en ∈ post, en.1 ≠ id := by
    intro en hm heq
    apply hndpost.1
    rw [← heq]
    exact List.mem_map.mpr ⟨en, hm, rfl⟩
  have hlook0 : lookupTE (pre ++ (id, s, e) :: post) id = some (s, e) :=
    lookup_of_mem_nodup hmem hnd0
  rw [List.foldl_append, List.foldl_cons]
  have hlook1 :
      lookupTE (List.foldl (fun r en => ruleFn pos le en r)
          (pre ++ (id, s, e) :: post) pre) id = some (s, e) := by
    rw [foldl_ruleFn_lookup_ne pos le pre _ id hpreids]
    exact hlook0
  have hnodup1 :
      (idsOf (List.foldl (fun r en => ruleFn pos le en r)
          (pre ++ (id, s, e) :: post) pre)).Nodup :=
    foldl_ruleFn_nodup pos le pre _ hnd0
  rw [foldl_ruleFn_lookup_ne pos le post _ id hpostids]
  by_cases hA : s ≤ pos ∧ pos < e
  · rw [if_pos hA, ruleFn_eq, if_pos hA]
    exact lookup_eraseTE_self hnodup1
  · rw [if_neg hA, ruleFn_eq, if_neg hA]
    by_cases hB : s > pos
    · rw [if_pos hB, if_pos hB]
      exact lookup_updateTE_self _ id _
    · rw [if_neg hB, if_neg hB]
      exact hlook1

theorem ListGenome.insert_te_eq (g : ListGenome) (pos le : Int)
    (h1 : ¬ pos > (g.genome.length : Int)) (h2 : ¬ g.genome.length = 0)
    (p : Int) (hp : p = pos % (g.genome.length : Int))
    (gen2 : List Char) (reg2 : TEReg)
    (hgen : gen2 = (teLoop sliceAssignX p le g.te_identities
        (g.genome, g.te_identities)).1)
    (hreg : reg2 = (teLoop sliceAssignX p le g.te_identities
        (g.genome, g.te_identities)).2) :
    g.insert_te pos le = .ok
      ({ genome := gen2.take p.toNat ++ List.replicate le.toNat 'A' ++
           gen2.drop p.toNat,
         te_identities := updateTE reg2 (g.te_count + 1) (p, p + le),
         te_count := g.te_count + 1 }, g.te_count + 1) := by
  subst hp
  subst hgen
  subst hreg
  simp only [ListGenome.insert_te, if_neg h1, if_neg h2]

theorem LinkedListGenome.insert_te_eq_lk (g : LinkedListGenome) (pos le : Int)
    (h1 : ¬ pos > g.length) (gen2 : List Char) (reg2 : TEReg)
    (hgen : gen2 = (teLoop linkAssignX pos le g.te_identities
        (g.cells, g.te_identities)).1)
    (hreg : reg2 = (teLoop linkAssignX pos le g.te_identities
        (g.cells, g.te_identities)).2) :
    g.insert_te pos le = .ok
      ({ cells := linkSplice gen2 pos le.toNat,
         length := g.length + le,
         te_identities := updateTE reg2 (g.te_count + 1) (pos, pos + le),
         te_count := g.te_count + 1 }, g.te_count + 1) := by
  subst hgen
  subst hreg
  simp only [LinkedListGenome.insert_te, if_neg h1]

theorem length_sliceAssignX (g : List Char) (s e : Int) :
    (sliceAssignX g s e).length = g.length :=
  length_setRangeAux 'x' s e 0 g

theorem length_linkAssignX (g : List Char) (s e : Int) :
    (linkAssignX g s e).length = g.length :=
  length_setRangeAux 'x' _ _ 0 g

theorem teLoop_fst_length (mark : List Char → Int → Int → List Char)
    (hmark : ∀ (gn : List Char) (a b : Int), (mark gn a b).length = gn.length)
    (pos le : Int) :
    ∀ (snap : TEReg) (gen : List Char) (reg : TEReg),
      (teLoop mark pos le snap (gen, reg)).1.length = gen.length := by
  intro snap
  induction snap with
  | nil => intro gen reg; rfl
  | cons en rest ih =>
    intro gen reg
    obtain ⟨id, s, e⟩ := en
    by_cases h1 : s ≤ pos ∧ pos < e
    · simp only [teLoop, if_pos h1]
      rw [ih (mark gen s e) _]
      exact hmark gen s e
    · by_cases h2 : s > pos
      · simp only [teLoop, if_neg h1, if_pos h2]
        exact ih gen _
      · simp only [teLoop, if_neg h1, if_neg h2]
        exact ih gen _

theorem linkSplice_eq_of_pos (cells : List Char) (pos : Int) (le : Nat)
    (h1 : 1 ≤ pos) (h2 : 0 < cells.length) :
    linkSplice cells pos le =
      cells.take pos.toNat ++ List.replicate le 'A' ++ cells.drop pos.toNat := by
  cases cells with
  | nil => simp at h2
  | cons x xs =>
    unfold linkSplice
    rw [if_neg (by simp)]
    have h3 : (pos - 1).toNat + 1 = pos.toNat := by omega
    rw [h3]

theorem length_linkSplice (cells : List Char) (pos : Int) (le : Nat)
    (h : pos ≤ (cells.length : Int)) :
    (linkSplice cells pos le).length = cells.length + le := by
  cases cells with
  | nil =>
    simp [linkSplice]
  | cons x xs =>
    unfold linkSplice
    rw [if_neg (by simp)]
    simp only [List.length_append, List.length_take, List.length_drop,
      List.length_replicate, List.length_cons]
    have h2 : (pos - 1).toNat + 1 ≤ xs.length + 1 := by
      simp [List.length_cons] at h
      omega
    omega

theorem charAt_splice_left (markd : List Char) (pn le i : Nat)
    (hpn : pn ≤ markd.length) (hi : i < pn) :
    charAt (markd.take pn ++ List.replicate le 'A' ++ markd.drop pn) i =
      charAt markd i := by
  have hl1 : (markd.take pn).length = pn := by
    simp [List.length_take]
    omega
  have hia : i < (markd.take pn ++ List.replicate le 'A').length := by
    simp [List.length_append, List.length_take, List.length_replicate]
    omega
  rw [charAt_append_left _ _ i hia,
    charAt_append_left _ _ i (by rw [hl1]; exact hi),
    charAt_take _ _ _ hi]

theorem charAt_splice_mid (markd : List Char) (pn le i : Nat)
    (hpn : pn ≤ markd.length) (h1 : pn ≤ i) (h2 : i < pn + le) :
    charAt (markd.take pn ++ List.replicate le 'A' ++ markd.drop pn) i = 'A' := by
  have hl1 : (markd.take pn).length = pn := by
    simp [List.length_take]
    omega
  have hia : i < (markd.take pn ++ List.replicate le 'A').length := by
    simp [List.length_append, List.length_take, List.length_replicate]
    omega
  rw [charAt_append_left _ _ i hia,
    charAt_append_right _ _ i (by rw [hl1]; exact h1), hl1]
  exact charAt_replicate le 'A' (i - pn) (by omega)

theorem charAt_splice_right (markd : List Char) (pn le i : Nat)
    (hpn : pn ≤ markd.length) (h1 : pn + le ≤ i) :
    charAt (markd.take pn ++ List.replicate le 'A' ++ markd.drop pn) i =
      charAt markd (i - le) := by
  have hl2 : (markd.take pn ++ List.replicate le 'A').length = pn + le := by
    simp [List.length_append, List.length_take, List.length_replicate]
    omega
  rw [charAt_append_right _ _ i (by rw [hl2]; exact h1), hl2, charAt_drop]
  congr 1
  omega

theorem disjoint_symm :
    Symmetric (fun a b : Int × Int × Int => a.2.2 ≤ b.2.1 ∨ b.2.2 ≤ a.2.1) := by
  intro a b hab
  rcases hab with h | h
  · exact Or.inr h
  · exact Or.inl h

theorem only_collision (reg : TEReg) (id s e pos : Int)
    (hmem : (id, s, e) ∈ reg)
    (hdisj : reg.Pairwise (fun a b => a.2.2 ≤ b.2.1 ∨ b.2.2 ≤ a.2.1))
    (hsp : s ≤ pos) (hpe : pos < e) :
    ∀ en ∈ reg, en.1 ≠ id → ¬ (en.2.1 ≤ pos ∧ pos < en.2.2) := by
  intro en hm hne hcol
  have hd : en.2.2 ≤ s ∨ e ≤ en.2.1 :=
    List.Pairwise.forall disjoint_symm hdisj hm hmem (fun heq => hne (by rw [heq]))
  obtain ⟨hc1, hc2⟩ := hcol
  rcases hd with h | h
  · omega
  · omega

theorem split_no_collision (pre post : TEReg) (id s e pos : Int)
    (hnd : (idsOf (pre ++ (id, s, e) :: post)).Nodup)
    (honly : ∀ en ∈ pre ++ (id, s, e) :: post, en.1 ≠ id →
      ¬ (en.2.1 ≤ pos ∧ pos < en.2.2)) :
    (∀ en ∈ pre, ¬ (en.2.1 ≤ pos ∧ pos < en.2.2)) ∧
    (∀ en ∈ post, ¬ (en.2.1 ≤ pos ∧ pos < en.2.2)) := by
  have hids : idsOf (pre ++ (id, s, e) :: post) = idsOf pre ++ id :: idsOf post := by
    simp [idsOf]
  rw [hids, List.nodup_append] at hnd
  obtain ⟨h1, h2, h3⟩ := hnd
  rw [List.nodup_cons] at h2
  constructor
  · intro en hm
    refine honly en (List.mem_append_left _ hm) ?_
    intro heq
    apply h3 (List.mem_map.mpr ⟨en, hm, rfl⟩)
    rw [heq]
    exact List.mem_cons_self _ _
  · intro en hm
    refine honly en (List.mem_append_right _ (List.mem_cons_of_mem _ hm)) ?_
    intro heq
    apply h2.1
    rw [← heq]
    exact List.mem_map.mpr ⟨en, hm, rfl⟩

theorem ListGenome.insert_collision (g : ListGenome) (id s e pos : Int)
    (le : Nat) (hwf : g.WF) (hmem : (id, s, e) ∈ g.te_identities)
    (hsp : s ≤ pos) (hpe : pos < e) :
    ∃ g2, g.insert_te pos (le : Int) = .ok (g2, g.te_count + 1) ∧
      id ∉ g2.active_tes ∧
      lookupTE g2.te_identities (g.te_count + 1) = some (pos, pos + (le : Int)) ∧
      (g.te_count + 1) ∈ g2.active_tes ∧
      (∀ i : Nat, s ≤ (i : Int) → (i : Int) < pos → charAt g2.genome i = 'x') ∧
      (∀ i : Nat, pos ≤ (i : Int) → (i : Int) < pos + (le : Int) →
        charAt g2.genome i = 'A') ∧
      (∀ i : Nat, pos + (le : Int) ≤ (i : Int) → (i : Int) < e + (le : Int) →
        charAt g2.genome i = 'x') := by
  obtain ⟨hnd, hbounds, hdisj⟩ := hwf
  have hb : 1 ≤ id ∧ id ≤ g.te_count ∧ 0 ≤ s ∧ s < e ∧
      e ≤ (g.genome.length : Int) := hbounds (id, s, e) hmem
  obtain ⟨hid1, hidc, hs0, hse, heL⟩ := hb
  have hposL : pos < (g.genome.length : Int) := by omega
  have hpos0 : 0 ≤ pos := by omega
  have hgt : ¬ pos > (g.genome.length : Int) := by omega
  have hz : ¬ g.genome.length = 0 := by omega
  have hmod : pos % (g.genome.length : Int) = pos := Int.emod_eq_of_lt hpos0 hposL
  have honly := only_collision g.te_identities id s e pos hmem hdisj hsp hpe
  obtain ⟨pre, post, hsplit⟩ := List.append_of_mem hmem
  have hnd2 := hnd
  rw [hsplit] at hnd2 honly
  obtain ⟨hprenc, hpostnc⟩ := split_no_collision pre post id s e pos hnd2 honly
  have hfst : (teLoop sliceAssignX pos (le : Int) g.te_identities
      (g.genome, g.te_identities)).1 = sliceAssignX g.genome s e := by
    conv_lhs => rw [hsplit]
    exact teLoop_fst_single sliceAssignX pos (le : Int) pre post id s e
      g.genome _ hprenc hpostnc ⟨hsp, hpe⟩
  have hsnd : (teLoop sliceAssignX pos (le : Int) g.te_identities
      (g.genome, g.te_identities)).2 =
      List.foldl (fun r en => ruleFn pos (le : Int) en r)
        g.te_identities g.te_identities :=
    teLoop_snd sliceAssignX pos (le : Int) g.te_identities g.genome g.te_identities
  have hlookid : lookupTE (List.foldl (fun r en => ruleFn pos (le : Int) en r)
      g.te_identities g.te_identities) id = none := by
    have h := foldl_ruleFn_lookup_self pos (le : Int) g.te_identities id s e hmem hnd
    rw [if_pos ⟨hsp, hpe⟩] at h
    exact h
  have hkey := ListGenome.insert_te_eq g pos (le : Int) hgt hz pos hmod.symm
    (sliceAssignX g.genome s e)
    (List.foldl (fun r en => ruleFn pos (le : Int) en r)
      g.te_identities g.te_identities)
    hfst.symm hsnd.symm
  have hml : (sliceAssignX g.genome s e).length = g.genome.length :=
    length_sliceAssignX g.genome s e
  have hpn : pos.toNat ≤ (sliceAssignX g.genome s e).length := by omega
  have hcne : id ≠ g.te_count + 1 := by omega
  refine ⟨_, hkey, ?_, ?_, ?_, ?_, ?_, ?_⟩
  · dsimp only [ListGenome.active_tes]
    apply lookup_eq_none_iff.mp
    rw [lookup_updateTE_ne _ _ _ _ hcne]
    exact hlookid
  · dsimp only
    exact lookup_updateTE_self _ _ _
  · dsimp only [ListGenome.active_tes]
    exact mem_idsOf_of_lookup (lookup_updateTE_self _ _ _)
  · intro i hi1 hi2
    dsimp only
    rw [charAt_splice_left _ _ _ _ hpn (by omega)]
    rw [charAt_sliceAssignX _ _ _ _ (by omega)]
    rw [if_pos ⟨by omega, by omega⟩]
  · intro i hi1 hi2
    dsimp only
    rw [charAt_splice_mid _ _ _ _ hpn (by omega) (by omega)]
  · intro i hi1 hi2
    dsimp only
    rw [charAt_splice_right _ _ _ _ hpn (by omega)]
    rw [charAt_sliceAssignX _ _ _ _ (by omega)]
    rw [if_pos ⟨by omega, by omega⟩]

theorem LinkedListGenome.insert_collision_lk (g : LinkedListGenome)
    (id s e pos : Int) (le : Nat) (hwf : g.WF)
    (hmem : (id, s, e) ∈ g.te_identities)
    (hpos1 : 1 ≤ pos) (hsp : s ≤ pos) (hpe : pos < e) :
    ∃ g2, g.insert_te pos (le : Int) = .ok (g2, g.te_count + 1) ∧
      id ∉ g2.active_tes ∧
      lookupTE g2.te_identities (g.te_count + 1) = some (pos, pos + (le : Int)) ∧
      (g.te_count + 1) ∈ g2.active_tes ∧
      (∀ i : Nat, s ≤ (i : Int) → (i : Int) < pos → charAt g2.cells i = 'x') ∧
      (∀ i : Nat, pos ≤ (i : Int) → (i : Int) < pos + (le : Int) →
        charAt g2.cells i = 'A') ∧
      (∀ i : Nat, pos + (le : Int) ≤ (i : Int) → (i : Int) < e + (le : Int) →
        charAt g2.cells i = 'x') := by
  obtain ⟨hlen, hnd, hbounds, hdisj⟩ := hwf
  have hb : 1 ≤ id ∧ id ≤ g.te_count ∧ 0 ≤ s ∧ s < e ∧
      e ≤ (g.cells.length : Int) := hbounds (id, s, e) hmem
  obtain ⟨hid1, hidc, hs0, hse, heL⟩ := hb
  have hgt : ¬ pos > g.length := by omega
  have honly := only_collision g.te_identities id s e pos hmem hdisj hsp hpe
  obtain ⟨pre, post, hsplit⟩ := List.append_of_mem hmem
  have hnd2 := hnd
  rw [hsplit] at hnd2 honly
  obtain ⟨hprenc, hpostnc⟩ := split_no_collision pre post id s e pos hnd2 honly
  have hfst : (teLoop linkAssignX pos (le : Int) g.te_identities
      (g.cells, g.te_identities)).1 = linkAssignX g.cells s e := by
    conv_lhs => rw [hsplit]
    exact teLoop_fst_single linkAssignX pos (le : Int) pre post id s e
      g.cells _ hprenc hpostnc ⟨hsp, hpe⟩
  have hsnd : (teLoop linkAssignX pos (le : Int) g.te_identities
      (g.cells, g.te_identities)).2 =
      List.foldl (fun r en => ruleFn pos (le : Int) en r)
        g.te_identities g.te_identities :=
    teLoop_snd linkAssignX pos (le : Int) g.te_identities g.cells g.te_identities
  have hlookid : lookupTE (List.foldl (fun r en => ruleFn pos (le : Int) en r)
      g.te_identities g.te_identities) id = none := by
    have h := foldl_ruleFn_lookup_self pos (le : Int) g.te_identities id s e hmem hnd
    rw [if_pos ⟨hsp, hpe⟩] at h
    exact h
  have hkey := LinkedListGenome.insert_te_eq_lk g pos (le : Int) hgt
    (linkAssignX g.cells s e)
    (List.foldl (fun r en => ruleFn pos (le : Int) en r)
      g.te_identities g.te_identities)
    hfst.symm hsnd.symm
  have hml : (linkAssignX g.cells s e).length = g.cells.length :=
    length_linkAssignX g.cells s e
  have hpn : pos.toNat ≤ (linkAssignX g.cells s e).length := by omega
  have hsplice : linkSplice (linkAssignX g.cells s e) pos ((le : Int)).toNat =
      (linkAssignX g.cells s e).take pos.toNat ++
        List.replicate ((le : Int)).toNat 'A' ++
        (linkAssignX g.cells s e).drop pos.toNat :=
    linkSplice_eq_of_pos _ _ _ hpos1 (by omega)
  have hcne : id ≠ g.te_count + 1 := by omega
  refine ⟨_, hkey, ?_, ?_, ?_, ?_, ?_, ?_⟩
  · dsimp only [LinkedListGenome.active_tes]
    apply lookup_eq_none_iff.mp
    rw [lookup_updateTE_ne _ _ _ _ hcne]
    exact hlookid
  · dsimp only
    exact lookup_updateTE_self _ _ _
  · dsimp only [LinkedListGenome.active_tes]
    exact mem_idsOf_of_lookup (lookup_updateTE_self _ _ _)
  · intro i hi1 hi2
    dsimp only
    rw [hsplice]
    rw [charAt_splice_left _ _ _ _ hpn (by omega)]
    rw [charAt_linkAssignX _ _ _ hs0 (by omega) _ (by omega)]
    rw [if_pos ⟨by omega, by omega⟩]
  · intro i hi1 hi2
    dsimp only
    rw [hsplice]
    rw [charAt_splice_mid _ _ _ _ hpn (by omega) (by omega)]
  · intro i hi1 hi2
    dsimp only
    rw [hsplice]
    rw [charAt_splice_right _ _ _ _ hpn (by omega)]
    rw [charAt_linkAssignX _ _ _ hs0 (by omega) _ (by omega)]
    rw [if_pos ⟨by omega, by omega⟩]

theorem ListGenome.insert_shift (g : ListGenome) (id s e pos : Int) (le : Nat)
    (hwf : g.WF) (hmem : (id, s, e) ∈ g.te_identities)
    (hpos0 : 0 ≤ pos) (hposL : pos < (g.genome.length : Int)) (hgt2 : s > pos) :
    ∃ g2, g.insert_te pos (le : Int) = .ok (g2, g.te_count + 1) ∧
      lookupTE g2.te_identities id = some (s + le, e + le) := by
  obtain ⟨hnd, hbounds, hdisj⟩ := hwf
  have hb : 1 ≤ id ∧ id ≤ g.te_count ∧ 0 ≤ s ∧ s < e ∧
      e ≤ (g.genome.length : Int) := hbounds (id, s, e) hmem
  obtain ⟨hid1, hidc, hs0, hse, heL⟩ := hb
  have hgt : ¬ pos > (g.genome.length : Int) := by omega
  have hz : ¬ g.genome.length = 0 := by omega
  have hmod : pos % (g.genome.length : Int) = pos := Int.emod_eq_of_lt hpos0 hposL
  have hkey := ListGenome.insert_te_eq g pos (le : Int) hgt hz pos hmod.symm _ _ rfl rfl
  have hcls := foldl_ruleFn_lookup_self pos (le : Int) g.te_identities id s e hmem hnd
  rw [if_neg (by omega), if_pos hgt2] at hcls
  refine ⟨_, hkey, ?_⟩
  dsimp only
  rw [lookup_updateTE_ne _ _ _ _ (by omega : id ≠ g.te_count + 1)]
  rw [teLoop_snd]
  exact hcls

theorem ListGenome.insert_untouched (g : ListGenome) (id s e pos : Int)
    (le : Nat) (hwf : g.WF) (hmem : (id, s, e) ∈ g.te_identities)
    (hep : e ≤ pos) (hposL : pos < (g.genome.length : Int)) :
    ∃ g2, g.insert_te pos (le : Int) = .ok (g2, g.te_count + 1) ∧
      lookupTE g2.te_identities id = some (s, e) := by
  obtain ⟨hnd, hbounds, hdisj⟩ := hwf
  have hb : 1 ≤ id ∧ id ≤ g.te_count ∧ 0 ≤ s ∧ s < e ∧
      e ≤ (g.genome.length : Int) := hbounds (id, s, e) hmem
  obtain ⟨hid1, hidc, hs0, hse, heL⟩ := hb
  have hpos0 : 0 ≤ pos := by omega
  have hgt : ¬ pos > (g.genome.length : Int) := by omega
  have hz : ¬ g.genome.length = 0 := by omega
  have hmod : pos % (g.genome.length : Int) = pos := Int.emod_eq_of_lt hpos0 hposL
  have hkey := ListGenome.insert_te_eq g pos (le : Int) hgt hz pos hmod.symm _ _ rfl rfl
  have hcls := foldl_ruleFn_lookup_self pos (le : Int) g.te_identities id s e hmem hnd
  rw [if_neg (by omega), if_neg (by omega)] at hcls
  refine ⟨_, hkey, ?_⟩
  dsimp only
  rw [lookup_updateTE_ne _ _ _ _ (by omega : id ≠ g.te_count + 1)]
  rw [teLoop_snd]
  exact hcls

theorem LinkedListGenome.insert_shift_lk (g : LinkedListGenome)
    (id s e pos : Int) (le : Nat) (hwf : g.WF)
    (hmem : (id, s, e) ∈ g.te_identities)
    (hposL : pos ≤ g.length) (hgt2 : s > pos) :
    ∃ g2, g.insert_te pos (le : Int) = .ok (g2, g.te_count + 1) ∧
      lookupTE g2.te_identities id = some (s + le, e + le) := by
  obtain ⟨hlen, hnd, hbounds, hdisj⟩ := hwf
  have hb : 1 ≤ id ∧ id ≤ g.te_count ∧ 0 ≤ s ∧ s < e ∧
      e ≤ (g.cells.length : Int) := hbounds (id, s, e) hmem
  obtain ⟨hid1, hidc, hs0, hse, heL⟩ := hb
  have hgt : ¬ pos > g.length := by omega
  have hkey := LinkedListGenome.insert_te_eq_lk g pos (le : Int) hgt _ _ rfl rfl
  have hcls := foldl_ruleFn_lookup_self pos (le : Int) g.te_identities id s e hmem hnd
  rw [if_neg (by omega), if_pos hgt2] at hcls
  refine ⟨_, hkey, ?_⟩
  dsimp only
  rw [lookup_updateTE_ne _ _ _ _ (by omega : id ≠ g.te_count + 1)]
  rw [teLoop_snd]
  exact hcls

theorem LinkedListGenome.insert_untouched_lk (g : LinkedListGenome)
    (id s e pos : Int) (le : Nat) (hwf : g.WF)
    (hmem : (id, s, e) ∈ g.te_identities)
    (hep : e ≤ pos) (hposL : pos ≤ g.length) :
    ∃ g2, g.insert_te pos (le : Int) = .ok (g2, g.te_count + 1) ∧
      lookupTE g2.te_identities id = some (s, e) := by
  obtain ⟨hlen, hnd, hbounds, hdisj⟩ := hwf
  have hb : 1 ≤ id ∧ id ≤ g.te_count ∧ 0 ≤ s ∧ s < e ∧
      e ≤ (g.cells.length : Int) := hbounds (id, s, e) hmem
  obtain ⟨hid1, hidc, hs0, hse, heL⟩ := hb
  have hgt : ¬ pos > g.length := by omega
  have hkey := LinkedListGenome.insert_te_eq_lk g pos (le : Int) hgt _ _ rfl rfl
  have hcls := foldl_ruleFn_lookup_self pos (le : Int) g.te_identities id s e hmem hnd
  rw [if_neg (by omega), if_neg (by omega)] at hcls
  refine ⟨_, hkey, ?_⟩
  dsimp only
  rw [lookup_updateTE_ne _ _ _ _ (by omega : id ≠ g.te_count + 1)]
  rw [teLoop_snd]
  exact hcls

theorem lookup_mem {r : TEReg} {j : Int} {v : Int × Int}
    (h : lookupTE r j = some v) : (j, v.1, v.2) ∈ r := by
  induction r with
  | nil => exact Option.noConfusion h
  | cons en rest ih =>
    obtain ⟨k, s, e⟩ := en
    by_cases hk : k = j
    · subst hk
      rw [lookupTE, if_pos rfl] at h
      injection h with h2
      rw [← h2]
      exact List.mem_cons_self _ _
    · rw [lookupTE, if_neg hk] at h
      exact List.mem_cons_of_mem _ (ih h)

theorem ListGenome.insert_ok_length {g : ListGenome} {pos le : Int}
    {g2 : ListGenome} {r : Int} (h : g.insert_te pos le = .ok (g2, r)) :
    g2.genome.length = g.genome.length + le.toNat := by
  by_cases h1 : pos > (g.genome.length : Int)
  · simp only [ListGenome.insert_te, if_pos h1] at h
    exact Except.noConfusion h
  · by_cases h2 : g.genome.length = 0
    · simp only [ListGenome.insert_te, if_neg h1, if_pos h2] at h
      exact Except.noConfusion h
    · rw [ListGenome.insert_te_eq g pos le h1 h2 _ rfl _ _ rfl rfl] at h
      injection h with h4
      injection h4 with h5 h6
      subst h5
      have hL0 : (0 : Int) ≤ pos % (g.genome.length : Int) :=
        Int.emod_nonneg pos (by omega)
      have hL1 : pos % (g.genome.length : Int) < (g.genome.length : Int) :=
        Int.emod_lt_of_pos pos (by omega)
      have hfl : (teLoop sliceAssignX (pos % (g.genome.length : Int)) le
          g.te_identities (g.genome, g.te_identities)).1.length =
          g.genome.length :=
        teLoop_fst_length sliceAssignX length_sliceAssignX _ _ _ _ _
      dsimp only
      simp only [List.length_append, List.length_take, List.length_drop,
        List.length_replicate, hfl]
      omega

theorem ListGenome.disable_ok_length {g : ListGenome} {te : Int}
    {g2 : ListGenome} (h : g.disable_te te = .ok g2) :
    g2.genome.length = g.genome.length := by
  unfold ListGenome.disable_te at h
  cases hl : lookupTE g.te_identities te with
  | none =>
    rw [hl] at h
    exact Except.noConfusion h
  | some v =>
    obtain ⟨s, e⟩ := v
    rw [hl] at h
    injection h with h2
    subst h2
    dsimp only
    exact length_sliceAssignX _ _ _

theorem ListGenome.copy_ok_length {g : ListGenome} {te off : Int}
    {r : ListGenome × Option Int} (h : g.copy_te te off = .ok r) :
    g.genome.length ≤ r.1.genome.length := by
  unfold ListGenome.copy_te at h
  cases hl : lookupTE g.te_identities te with
  | none =>
    rw [hl] at h
    injection h with h2
    rw [← h2]
  | some v =>
    obtain ⟨s, e⟩ := v
    rw [hl] at h
    dsimp only at h
    cases hi : g.insert_te (s + off) (e - s) with
    | ok ri =>
      obtain ⟨gi, ridi⟩ := ri
      rw [hi] at h
      simp only [Except.map] at h
      injection h with h2
      rw [← h2]
      have h3 := ListGenome.insert_ok_length hi
      dsimp only
      omega
    | error er =>
      rw [hi] at h
      simp only [Except.map] at h
      exact Except.noConfusion h

theorem ListGenome.stepOp_len_mono (g : ListGenome) (op : GOp) :
    g.genome.length ≤ (g.stepOp op).genome.length := by
  cases op with
  | insert pos le =>
    dsimp only [ListGenome.stepOp]
    cases h : g.insert_te pos (le : Int) with
    | ok r =>
      obtain ⟨g2, rid⟩ := r
      dsimp only
      have h2 := ListGenome.insert_ok_length h
      omega
    | error er => exact le_refl _
  | copy te off =>
    dsimp only [ListGenome.stepOp]
    cases h : g.copy_te te off with
    | ok r =>
      dsimp only
      exact ListGenome.copy_ok_length h
    | error er => exact le_refl _
  | disable te =>
    dsimp only [ListGenome.stepOp]
    cases h : g.disable_te te with
    | ok g2 =>
      dsimp only
      exact le_of_eq (ListGenome.disable_ok_length h).symm
    | error er => exact le_refl _

theorem ListGenome.stepOp_insert_len (g : ListGenome) (pos : Int) (le : Nat)
    (h : ∃ r, g.insert_te pos (le : Int) = .ok r) :
    (g.stepOp (GOp.insert pos le)).len = g.len + le := by
  obtain ⟨r, hr⟩ := h
  obtain ⟨g2, rid⟩ := r
  dsimp only [ListGenome.stepOp]
  rw [hr]
  dsimp only
  have h2 := ListGenome.insert_ok_length hr
  simp only [ListGenome.len]
  omega

theorem ListGenome.stepOp_disable_len (g : ListGenome) (te : Int) :
    (g.stepOp (GOp.disable te)).len = g.len := by
  dsimp only [ListGenome.stepOp]
  cases h : g.disable_te te with
  | ok g2 =>
    dsimp only
    simp only [ListGenome.len]
    rw [ListGenome.disable_ok_length h]
  | error er => rfl

theorem LinkedListGenome.insert_ok_len {g : LinkedListGenome} {pos le : Int}
    {g2 : LinkedListGenome} {r : Int} (h : g.insert_te pos le = .ok (g2, r)) :
    g2.length = g.length + le ∧ pos ≤ g.length := by
  by_cases h1 : pos > g.length
  · simp only [LinkedListGenome.insert_te, if_pos h1] at h
    exact Except.noConfusion h
  · rw [LinkedListGenome.insert_te_eq_lk g pos le h1 _ _ rfl rfl] at h
    injection h with h4
    injection h4 with h5 h6
    subst h5
    exact ⟨rfl, by omega⟩

theorem LinkedListGenome.insert_ok_cells {g : LinkedListGenome} {pos le : Int}
    {g2 : LinkedListGenome} {r : Int} (hlen : g.length = (g.cells.length : Int))
    (h : g.insert_te pos le = .ok (g2, r)) :
    g2.cells.length = g.cells.length + le.toNat := by
  by_cases h1 : pos > g.length
  · simp only [LinkedListGenome.insert_te, if_pos h1] at h
    exact Except.noConfusion h
  · rw [LinkedListGenome.insert_te_eq_lk g pos le h1 _ _ rfl rfl] at h
    injection h with h4
    injection h4 with h5 h6
    subst h5
    dsimp only
    have hfl : (teLoop linkAssignX pos le g.te_identities
        (g.cells, g.te_identities)).1.length = g.cells.length :=
      teLoop_fst_length linkAssignX length_linkAssignX _ _ _ _ _
    rw [length_linkSplice _ _ _ (by omega), hfl]

theorem LinkedListGenome.insert_inv {g : LinkedListGenome} {pos le : Int}
    {g2 : LinkedListGenome} {r : Int} (hInv : g.Inv) (hle : 0 ≤ le)
    (h : g.insert_te pos le = .ok (g2, r)) : g2.Inv := by
  obtain ⟨hlen, hpos0, hrg⟩ := hInv
  have hcl := LinkedListGenome.insert_ok_cells hlen h
  have hln := (LinkedListGenome.insert_ok_len h).1
  refine ⟨?_, by omega, ?_⟩
  · rw [hln, hcl]
    push_cast
    omega
  · by_cases h1 : pos > g.length
    · simp only [LinkedListGenome.insert_te, if_pos h1] at h
      exact Except.noConfusion h
    · rw [LinkedListGenome.insert_te_eq_lk g pos le h1 _ _ rfl rfl] at h
      injection h with h4
      injection h4 with h5 h6
      subst h5
      dsimp only
      intro en hm
      rcases mem_updateTE hm with h7 | h7
      · rw [teLoop_snd] at h7
        exact foldl_ruleFn_ranges pos le g.te_identities g.te_identities hrg hrg en h7
      · rw [h7]
        dsimp only
        omega

theorem LinkedListGenome.disable_ok_len {g : LinkedListGenome} {te : Int}
    {g2 : LinkedListGenome} (h : g.disable_te te = .ok g2) :
    g2.length = g.length := by
  unfold LinkedListGenome.disable_te at h
  cases hl : lookupTE g.te_identities te with
  | none =>
    rw [hl] at h
    exact Except.noConfusion h
  | some v =>
    obtain ⟨s, e⟩ := v
    rw [hl] at h
    injection h with h2
    subst h2
    rfl

theorem LinkedListGenome.disable_inv {g : LinkedListGenome} {te : Int}
    {g2 : LinkedListGenome} (hInv : g.Inv) (h : g.disable_te te = .ok g2) :
    g2.Inv := by
  obtain ⟨hlen, hpos0, hrg⟩ := hInv
  unfold LinkedListGenome.disable_te at h
  cases hl : lookupTE g.te_identities te with
  | none =>
    rw [hl] at h
    exact Except.noConfusion h
  | some v =>
    obtain ⟨s, e⟩ := v
    rw [hl] at h
    injection h with h2
    subst h2
    refine ⟨?_, hpos0, ?_⟩
    · dsimp only
      rw [length_linkAssignX]
      exact hlen
    · intro en hm
      exact hrg en (mem_eraseTE hm)

theorem LinkedListGenome.copy_inv {g : LinkedListGenome} {te off : Int}
    {r : LinkedListGenome × Option Int} (hInv : g.Inv)
    (h : g.copy_te te off = .ok r) : r.1.Inv ∧ g.length ≤ r.1.length := by
  have hInv2 := hInv
  obtain ⟨hlen, hpos0, hrg⟩ := hInv
  unfold LinkedListGenome.copy_te at h
  cases hl : lookupTE g.te_identities te with
  | none =>
    rw [hl] at h
    injection h with h2
    rw [← h2]
    exact ⟨hInv2, le_refl _⟩
  | some v =>
    obtain ⟨s, e⟩ := v
    rw [hl] at h
    dsimp only at h
    have hse : s ≤ e := hrg (te, s, e) (lookup_mem hl)
    by_cases h1 : off > 0
    · rw [if_pos h1] at h
      cases hi : g.insert_te (s + off) (e - s) with
      | ok ri =>
        obtain ⟨gi, ridi⟩ := ri
        rw [hi] at h
        simp only [Except.map] at h
        injection h with h2
        rw [← h2]
        have hIv := LinkedListGenome.insert_inv hInv2 (by omega) hi
        have hL := (LinkedListGenome.insert_ok_len hi).1
        refine ⟨hIv, ?_⟩
        dsimp only
        omega
      | error er =>
        rw [hi] at h
        simp only [Except.map] at h
        exact Except.noConfusion h
    · rw [if_neg h1] at h
      by_cases h2 : s + off < 0
      · rw [if_pos h2] at h
        cases hi : g.insert_te (g.length + s + off) (e - s) with
        | ok ri =>
          obtain ⟨gi, ridi⟩ := ri
          rw [hi] at h
          simp only [Except.map] at h
          injection h with h3
          rw [← h3]
          have hIv := LinkedListGenome.insert_inv hInv2 (by omega) hi
          have hL := (LinkedListGenome.insert_ok_len hi).1
          refine ⟨hIv, ?_⟩
          dsimp only
          omega
        | error er =>
          rw [hi] at h
          simp only [Except.map] at h
          exact Except.noConfusion h
      · rw [if_neg h2] at h
        cases hi : g.insert_te (s + off) (e - s) with
        | ok ri =>
          obtain ⟨gi, ridi⟩ := ri
          rw [hi] at h
          simp only [Except.map] at h
          injection h with h3
          rw [← h3]
          have hIv := LinkedListGenome.insert_inv hInv2 (by omega) hi
          have hL := (LinkedListGenome.insert_ok_len hi).1
          refine ⟨hIv, ?_⟩
          dsimp only
          omega
        | error er =>
          rw [hi] at h
          simp only [Except.map] at h
          exact Except.noConfusion h

theorem LinkedListGenome.stepOp_inv (g : LinkedListGenome) (op : GOp)
    (hInv : g.Inv) : (g.stepOp op).Inv := by
  cases op with
  | insert pos le =>
    dsimp only [LinkedListGenome.stepOp]
    cases h : g.insert_te pos (le : Int) with
    | ok r =>
      obtain ⟨g2, rid⟩ := r
      dsimp only
      exact LinkedListGenome.insert_inv hInv (by omega) h
    | error er => exact hInv
  | copy te off =>
    dsimp only [LinkedListGenome.stepOp]
    cases h : g.copy_te te off with
    | ok r =>
      dsimp only
      exact (LinkedListGenome.copy_inv hInv h).1
    | error er => exact hInv
  | disable te =>
    dsimp only [LinkedListGenome.stepOp]
    cases h : g.disable_te te with
    | ok g2 =>
      dsimp only
      exact LinkedListGenome.disable_inv hInv h
    | error er => exact hInv

theorem LinkedListGenome.stepOp_len_mono_lk (g : LinkedListGenome) (op : GOp)
    (hInv : g.Inv) : g.length ≤ (g.stepOp op).length := by
  cases op with
  | insert pos le =>
    dsimp only [LinkedListGenome.stepOp]
    cases h : g.insert_te pos (le : Int) with
    | ok r =>
      obtain ⟨g2, rid⟩ := r
      dsimp only
      have h2 := (LinkedListGenome.insert_ok_len h).1
      omega
    | error er => exact le_refl _
  | copy te off =>
    dsimp only [LinkedListGenome.stepOp]
    cases h : g.copy_te te off with
    | ok r =>
      dsimp only
      exact (LinkedListGenome.copy_inv hInv h).2
    | error er => exact le_refl _
  | disable te =>
    dsimp only [LinkedListGenome.stepOp]
    cases h : g.disable_te te with
    | ok g2 =>
      dsimp only
      exact le_of_eq (LinkedListGenome.disable_ok_len h).symm
    | error er => exact le_refl _

theorem LinkedListGenome.stepOp_insert_len_lk (g : LinkedListGenome) (pos : Int)
    (le : Nat) (h : ∃ r, g.insert_te pos (le : Int) = .ok r) :
    (g.stepOp (GOp.insert pos le)).length = g.length + le := by
  obtain ⟨r, hr⟩ := h
  obtain ⟨g2, rid⟩ := r
  dsimp only [LinkedListGenome.stepOp]
  rw [hr]
  dsimp only
  exact (LinkedListGenome.insert_ok_len hr).1

theorem LinkedListGenome.stepOp_disable_len_lk (g : LinkedListGenome) (te : Int) :
    (g.stepOp (GOp.disable te)).length = g.length := by
  dsimp only [LinkedListGenome.stepOp]
  cases h : g.disable_te te with
  | ok g2 =>
    dsimp only
    exact LinkedListGenome.disable_ok_len h
  | error er => rfl

theorem runList_append_one (n : Nat) (ops : List GOp) (op : GOp) :
    runList n (ops ++ [op]) = (runList n ops).stepOp op := by
  simp [runList, List.foldl_append]

theorem runLinked_append_one (n : Nat) (ops : List GOp) (op : GOp) :
    runLinked n (ops ++ [op]) = (runLinked n ops).stepOp op := by
  simp [runLinked, List.foldl_append]

theorem runLinked_inv (n : Nat) (ops : List GOp) : (runLinked n ops).Inv := by
  have hbase : (LinkedListGenome.mkNew n).Inv := by
    refine ⟨by simp [LinkedListGenome.mkNew], by simp [LinkedListGenome.mkNew], ?_⟩
    intro en hm
    simp [LinkedListGenome.mkNew] at hm
  suffices h : ∀ (l : List GOp) (g : LinkedListGenome), g.Inv →
      (l.foldl LinkedListGenome.stepOp g).Inv by
    exact h ops _ hbase
  intro l
  induction l with
  | nil => intro g hg; exact hg
  | cons op rest ih =>
    intro g hg
    rw [List.foldl_cons]
    exact ih _ (LinkedListGenome.stepOp_inv g op hg)

theorem LinkedListGenome.len_render {g : LinkedListGenome} (hInv : g.Inv) :
    ((g.render.length : Nat) : Int) = g.len := by
  obtain ⟨hlen, hpos0, _⟩ := hInv
  have h1 : g.render.length = (g.cells.take g.length.toNat).length := rfl
  rw [h1, List.length_take]
  simp only [LinkedListGenome.len]
  omega

/-- C1: the two variants do not produce identical observables on every
script.  On the script `[insert_te(0, 1)]` over genomes built with `n = 2`,
the list variant renders `"A--"` but the linked variant renders `"-A-"`:
its insertion walk (`range(pos - 1)` then `insert_after`) places the run
after cell 0, i.e. at index 1, when `pos = 0`. -/
theorem c1_pos_zero_script_divergence :
    (runList 2 [GOp.insert 0 1]).render = "A--" ∧
    (runLinked 2 [GOp.insert 0 1]).render = "-A-" ∧
    (runList 2 [GOp.insert 0 1]).render ≠ (runLinked 2 [GOp.insert 0 1]).render := by
  refine ⟨rfl, rfl, by decide⟩

/-- C2: `disable_te` on an unknown or already-disabled id is not a no-op:
the guard `if self.te_identities[te]:` raises `KeyError` in both variants,
both on a never-issued id and on the second of two consecutive calls. -/
theorem c2_disable_unknown_raises :
    (ListGenome.mkNew 5).disable_te 1 = .error .keyError ∧
    (LinkedListGenome.mkNew 5).disable_te 1 = .error .keyError ∧
    (runList 5 [GOp.insert 1 2, GOp.disable 1]).render = "-xx----" ∧
    (runList 5 [GOp.insert 1 2, GOp.disable 1]).disable_te 1 = .error .keyError ∧
    (runLinked 5 [GOp.insert 1 2, GOp.disable 1]).disable_te 1 = .error .keyError := by
  refine ⟨rfl, rfl, rfl, rfl, rfl⟩

/-- C3: `pos = length()` is not circularized to 0 by the linked variant.
On `n = 2`, `insert_te(2, 1)` gives the list variant (which computes
`pos % len`) the range `(0, 1)` and render `"A--"`, but the linked variant
(which has no modulo) registers `(2, 3)` and renders `"--A"`. -/
theorem c3_linked_no_circularization :
    ((ListGenome.mkNew 2).insert_te 2 1).map
        (fun r => (r.1.render, lookupTE r.1.te_identities 1)) =
      .ok ("A--", some (0, 1)) ∧
    ((LinkedListGenome.mkNew 2).insert_te 2 1).map
        (fun r => (r.1.render, lookupTE r.1.te_identities 1)) =
      .ok ("--A", some (2, 3)) := by
  refine ⟨rfl, rfl⟩

/-- C4: `copy_te` on an active TE can fail.  With an active TE at `(1, 3)`
in a genome of length 12, `copy_te(1, 12)` computes target position 13,
and `insert_te` raises `ValueError` (its guard `pos > length` fires before
any modulo) instead of wrapping, in both variants. -/
theorem c4_copy_positive_overflow_raises :
    lookupTE (runList 10 [GOp.insert 1 2]).te_identities 1 = some (1, 3) ∧
    (runList 10 [GOp.insert 1 2]).len = 12 ∧
    (runList 10 [GOp.insert 1 2]).copy_te 1 12 = .error .valueError ∧
    lookupTE (runLinked 10 [GOp.insert 1 2]).te_identities 1 = some (1, 3) ∧
    (runLinked 10 [GOp.insert 1 2]).len = 12 ∧
    (runLinked 10 [GOp.insert 1 2]).copy_te 1 12 = .error .valueError := by
  refine ⟨rfl, rfl, rfl, rfl, rfl, rfl⟩

/-- C5: the linked variant breaks the registry/render invariant.  After
`insert_te(0, 2)` on `n = 3`, id 1 is active with registered range
`[0, 2)`, yet the render is `"-AA--"`: cell 0 is `'-'`, not `'A'`, because
the insertion walk placed the run at index 1. -/
theorem c5_linked_active_range_not_rendered :
    (runLinked 3 [GOp.insert 0 2]).active_tes = [1] ∧
    lookupTE (runLinked 3 [GOp.insert 0 2]).te_identities 1 = some (0, 2) ∧
    (runLinked 3 [GOp.insert 0 2]).render = "-AA--" ∧
    charAt (runLinked 3 [GOp.insert 0 2]).cells 0 = '-' := by
  refine ⟨rfl, rfl, rfl, rfl⟩

/-- C6, counterexample: after `insert_te(2, 3)` on `n = 10` the TE id 1 is
active with range `[2, 5)`; the colliding `insert_te(3, 2)` (position 3
lies strictly inside `[2, 5)`) disables it, but index 3 of the former span
`[2, 5)` renders `'A'` (a cell of the new TE), not `'x'`: the old TE's
cells beyond the insertion point are shifted to `[pos + len, e + len)`. -/
theorem c6_former_span_counterexample :
    lookupTE (runList 10 [GOp.insert 2 3]).te_identities 1 = some (2, 5) ∧
    (runList 10 [GOp.insert 2 3, GOp.insert 3 2]).active_tes = [2] ∧
    (runList 10 [GOp.insert 2 3, GOp.insert 3 2]).render = "--xAAxx--------" ∧
    charAt (runList 10 [GOp.insert 2 3, GOp.insert 3 2]).genome 3 = 'A' := by
  refine ⟨rfl, rfl, rfl, rfl⟩

/-- C8: `copy_te` on an id that is not a current registry key — one that
was never issued or has been disabled — returns `None` and leaves the
state untouched, in both variants. -/
theorem c8_copy_inactive_is_noop :
    (∀ (g : ListGenome) (te off : Int), lookupTE g.te_identities te = none →
      g.copy_te te off = .ok (g, none)) ∧
    (∀ (g : LinkedListGenome) (te off : Int), lookupTE g.te_identities te = none →
      g.copy_te te off = .ok (g, none)) := by
  constructor
  · intro g te off h
    simp [ListGenome.copy_te, h]
  · intro g te off h
    simp [LinkedListGenome.copy_te, h]

/-- C8, witness: a fresh genome has no TE with id 1, and copying it is the
identity on the state, in both variants. -/
theorem c8_copy_inactive_witness :
    lookupTE (ListGenome.mkNew 4).te_identities 1 = none ∧
    (ListGenome.mkNew 4).copy_te 1 5 = .ok (ListGenome.mkNew 4, none) ∧
    lookupTE (LinkedListGenome.mkNew 4).te_identities 1 = none ∧
    (LinkedListGenome.mkNew 4).copy_te 1 5 = .ok (LinkedListGenome.mkNew 4, none) :=
  ⟨rfl, c8_copy_inactive_is_noop.1 (ListGenome.mkNew 4) 1 5 rfl, rfl,
    c8_copy_inactive_is_noop.2 (LinkedListGenome.mkNew 4) 1 5 rfl⟩

/-- C10: in the list variant a negative position in `[-length, 0)` passes
the out-of-range guard (which only rejects `pos > length`), is mapped by
the modulo to `length + pos`, and the call is observably identical to
`insert_te(pos + length, len)` — in particular it does not fail. -/
theorem c10_negative_pos_wraps (g : ListGenome) (pos length : Int)
    (h1 : -(g.genome.length : Int) ≤ pos) (h2 : pos < 0) :
    g.insert_te pos length =
      g.insert_te (pos + (g.genome.length : Int)) length ∧
    ∃ r, g.insert_te pos length = .ok r := by
  have hA : ¬ (pos > (g.genome.length : Int)) := by omega
  have hB : ¬ (g.genome.length = 0) := by omega
  have hC : ¬ (pos + (g.genome.length : Int) > (g.genome.length : Int)) := by omega
  have hmod : (pos + (g.genome.length : Int)) % (g.genome.length : Int)
      = pos % (g.genome.length : Int) := by
    conv_lhs => rw [show pos + (g.genome.length : Int)
      = pos + (g.genome.length : Int) * 1 by ring]
    rw [Int.add_mul_emod_self_left]
  constructor
  · simp only [ListGenome.insert_te, if_neg hA, if_neg hB, if_neg hC, hmod]
  · simp only [ListGenome.insert_te, if_neg hA, if_neg hB]
    exact ⟨_, rfl⟩

/-- C10, witness: on a fresh genome of length 3, `insert_te(-2, 1)` equals
`insert_te(1, 1)` and succeeds, placing the TE at position 1. -/
theorem c10_negative_pos_witness :
    (ListGenome.mkNew 3).insert_te (-2) 1 =
      (ListGenome.mkNew 3).insert_te (-2 + ((ListGenome.mkNew 3).genome.length : Int)) 1 ∧
    (∃ r, (ListGenome.mkNew 3).insert_te (-2) 1 = .ok r) ∧
    (ListGenome.mkNew 3).insert_te (-2) 1 =
      .ok ({ genome := ['-', 'A', '-', '-'], te_identities := [(1, 1, 2)],
             te_count := 1 }, 1) := by
  have h := c10_negative_pos_wraps (ListGenome.mkNew 3) (-2) 1 (by decide) (by decide)
  exact ⟨h.1, h.2, rfl⟩

/-- C6 (amended): for a well-formed state of either variant holding an
active TE `(id, [s, e))`, an insertion at a circularized position `pos`
with `s ≤ pos < e` (for the linked variant additionally `1 ≤ pos`, keeping
clear of its position-0 insertion defect) succeeds, removes the colliding
TE from `active_tes()` entirely — never a partial truncation — and
registers the new TE active at `(pos, pos + le)`.  The old TE's cells all
render `'x'`, but at their post-insertion positions: indices `[s, pos)`
stay put and the part `[pos, e)` is shifted to `[pos + le, e + le)`, while
`[pos, pos + le)` renders the new TE's `'A'` run — so the claim's literal
reading, that every index of the former span `[s, e)` renders `'x'`, is
false (see the counterexample). -/
theorem c6_collision_disables_entirely :
    (∀ (g : ListGenome) (id s e pos : Int) (le : Nat),
      g.WF → (id, s, e) ∈ g.te_identities → s ≤ pos → pos < e →
      ∃ g2, g.insert_te pos (le : Int) = .ok (g2, g.te_count + 1) ∧
        id ∉ g2.active_tes ∧
        lookupTE g2.te_identities (g.te_count + 1) = some (pos, pos + (le : Int)) ∧
        (g.te_count + 1) ∈ g2.active_tes ∧
        (∀ i : Nat, s ≤ (i : Int) → (i : Int) < pos → charAt g2.genome i = 'x') ∧
        (∀ i : Nat, pos ≤ (i : Int) → (i : Int) < pos + (le : Int) →
          charAt g2.genome i = 'A') ∧
        (∀ i : Nat, pos + (le : Int) ≤ (i : Int) → (i : Int) < e + (le : Int) →
          charAt g2.genome i = 'x')) ∧
    (∀ (g : LinkedListGenome) (id s e pos : Int) (le : Nat),
      g.WF → (id, s, e) ∈ g.te_identities → 1 ≤ pos → s ≤ pos → pos < e →
      ∃ g2, g.insert_te pos (le : Int) = .ok (g2, g.te_count + 1) ∧
        id ∉ g2.active_tes ∧
        lookupTE g2.te_identities (g.te_count + 1) = some (pos, pos + (le : Int)) ∧
        (g.te_count + 1) ∈ g2.active_tes ∧
        (∀ i : Nat, s ≤ (i : Int) → (i : Int) < pos → charAt g2.cells i = 'x') ∧
        (∀ i : Nat, pos ≤ (i : Int) → (i : Int) < pos + (le : Int) →
          charAt g2.cells i = 'A') ∧
        (∀ i : Nat, pos + (le : Int) ≤ (i : Int) → (i : Int) < e + (le : Int) →
          charAt g2.cells i = 'x')) :=
  ⟨ListGenome.insert_collision, LinkedListGenome.insert_collision_lk⟩

/-- C6 (amended), witness: concrete collisions in both variants — the
colliding id 1 vanishes from the active set, id 2 appears, a shifted cell
of the old TE renders `'x'` and a cell of the new TE renders `'A'`. -/
theorem c6_collision_witness :
    (∃ g2, (ListGenome.mk ['-', 'A', 'A', '-'] [(1, 1, 3)] 1).insert_te 1
        ((2 : Nat) : Int) = .ok (g2, 2) ∧ 1 ∉ g2.active_tes ∧
        2 ∈ g2.active_tes ∧ charAt g2.genome 3 = 'x' ∧
        charAt g2.genome 1 = 'A') ∧
    (∃ g2, (LinkedListGenome.mk ['-', 'A', 'A', '-', '-'] 5 [(1, 1, 3)] 1).insert_te 2
        ((1 : Nat) : Int) = .ok (g2, 2) ∧ 1 ∉ g2.active_tes ∧
        2 ∈ g2.active_tes ∧ charAt g2.cells 3 = 'x' ∧
        charAt g2.cells 2 = 'A') := by
  constructor
  · obtain ⟨g2, h1, h2, h3, h4, h5, h6, h7⟩ :=
      c6_collision_disables_entirely.1 (ListGenome.mk ['-', 'A', 'A', '-'] [(1, 1, 3)] 1)
        1 1 3 1 2 (by decide) (by decide) (by decide) (by decide)
    exact ⟨g2, h1, h2, h4, h7 3 (by decide) (by decide), h6 1 (by decide) (by decide)⟩
  · obtain ⟨g2, h1, h2, h3, h4, h5, h6, h7⟩ :=
      c6_collision_disables_entirely.2
        (LinkedListGenome.mk ['-', 'A', 'A', '-', '-'] 5 [(1, 1, 3)] 1)
        1 1 3 2 1 (by decide) (by decide) (by decide) (by decide) (by decide)
    exact ⟨g2, h1, h2, h4, h7 3 (by decide) (by decide), h6 2 (by decide) (by decide)⟩

/-- C7: the concrete shift scenario holds in both variants — on `n = 10`,
`insert_te(5, 3)` gives id 1 the range `(5, 8)`, length 13 and render
`"-----AAA-----"`; the following `insert_te(2, 2)` shifts id 1 to
`(7, 10)`, registers id 2 at `(2, 4)`, and yields length 15 and render
`"--AA---AAA-----"` (so `'A'` exactly at 2, 3, 7, 8, 9).  In general, on a
well-formed state an insertion shifts every active entry with start
strictly beyond the (circularized) position forward by the inserted
length, and leaves every entry lying entirely at or before it unchanged,
in both variants. -/
theorem c7_shift_on_insert :
    ((runList 10 [GOp.insert 5 3]).active_tes = [1] ∧
     lookupTE (runList 10 [GOp.insert 5 3]).te_identities 1 = some (5, 8) ∧
     (runList 10 [GOp.insert 5 3]).len = 13 ∧
     (runList 10 [GOp.insert 5 3]).render = "-----AAA-----" ∧
     (runLinked 10 [GOp.insert 5 3]).active_tes = [1] ∧
     lookupTE (runLinked 10 [GOp.insert 5 3]).te_identities 1 = some (5, 8) ∧
     (runLinked 10 [GOp.insert 5 3]).len = 13 ∧
     (runLinked 10 [GOp.insert 5 3]).render = "-----AAA-----") ∧
    (lookupTE (runList 10 [GOp.insert 5 3, GOp.insert 2 2]).te_identities 1 =
        some (7, 10) ∧
     lookupTE (runList 10 [GOp.insert 5 3, GOp.insert 2 2]).te_identities 2 =
        some (2, 4) ∧
     (runList 10 [GOp.insert 5 3, GOp.insert 2 2]).len = 15 ∧
     (runList 10 [GOp.insert 5 3, GOp.insert 2 2]).render = "--AA---AAA-----" ∧
     lookupTE (runLinked 10 [GOp.insert 5 3, GOp.insert 2 2]).te_identities 1 =
        some (7, 10) ∧
     lookupTE (runLinked 10 [GOp.insert 5 3, GOp.insert 2 2]).te_identities 2 =
        some (2, 4) ∧
     (runLinked 10 [GOp.insert 5 3, GOp.insert 2 2]).len = 15 ∧
     (runLinked 10 [GOp.insert 5 3, GOp.insert 2 2]).render = "--AA---AAA-----") ∧
    (∀ (g : ListGenome) (id s e pos : Int) (le : Nat),
      g.WF → (id, s, e) ∈ g.te_identities →
      0 ≤ pos → pos < (g.genome.length : Int) → s > pos →
      ∃ g2, g.insert_te pos (le : Int) = .ok (g2, g.te_count + 1) ∧
        lookupTE g2.te_identities id = some (s + le, e + le)) ∧
    (∀ (g : ListGenome) (id s e pos : Int) (le : Nat),
      g.WF → (id, s, e) ∈ g.te_identities →
      e ≤ pos → pos < (g.genome.length : Int) →
      ∃ g2, g.insert_te pos (le : Int) = .ok (g2, g.te_count + 1) ∧
        lookupTE g2.te_identities id = some (s, e)) ∧
    (∀ (g : LinkedListGenome) (id s e pos : Int) (le : Nat),
      g.WF → (id, s, e) ∈ g.te_identities →
      pos ≤ g.length → s > pos →
      ∃ g2, g.insert_te pos (le : Int) = .ok (g2, g.te_count + 1) ∧
        lookupTE g2.te_identities id = some (s + le, e + le)) ∧
    (∀ (g : LinkedListGenome) (id s e pos : Int) (le : Nat),
      g.WF → (id, s, e) ∈ g.te_identities →
      e ≤ pos → pos ≤ g.length →
      ∃ g2, g.insert_te pos (le : Int) = .ok (g2, g.te_count + 1) ∧
        lookupTE g2.te_identities id = some (s, e)) :=
  ⟨⟨rfl, rfl, rfl, rfl, rfl, rfl, rfl, rfl⟩,
   ⟨rfl, rfl, rfl, rfl, rfl, rfl, rfl, rfl⟩,
   ListGenome.insert_shift, ListGenome.insert_untouched,
   LinkedListGenome.insert_shift_lk, LinkedListGenome.insert_untouched_lk⟩

/-- C7, witness: on a concrete well-formed state with the TE `(1, [1, 3))`,
an insertion at position 0 shifts it to `(3, 5)` and an insertion at
position 3 leaves it at `(1, 3)`, in both variants. -/
theorem c7_shift_witness :
    (∃ g2, (ListGenome.mk ['-', 'A', 'A', '-'] [(1, 1, 3)] 1).insert_te 0
        ((2 : Nat) : Int) = .ok (g2, 2) ∧
        lookupTE g2.te_identities 1 = some (3, 5)) ∧
    (∃ g2, (ListGenome.mk ['-', 'A', 'A', '-'] [(1, 1, 3)] 1).insert_te 3
        ((2 : Nat) : Int) = .ok (g2, 2) ∧
        lookupTE g2.te_identities 1 = some (1, 3)) ∧
    (∃ g2, (LinkedListGenome.mk ['-', 'A', 'A', '-', '-'] 5 [(1, 1, 3)] 1).insert_te 0
        ((2 : Nat) : Int) = .ok (g2, 2) ∧
        lookupTE g2.te_identities 1 = some (3, 5)) ∧
    (∃ g2, (LinkedListGenome.mk ['-', 'A', 'A', '-', '-'] 5 [(1, 1, 3)] 1).insert_te 3
        ((2 : Nat) : Int) = .ok (g2, 2) ∧
        lookupTE g2.te_identities 1 = some (1, 3)) := by
  refine ⟨?_, ?_, ?_, ?_⟩
  · obtain ⟨g2, h1, h2⟩ := c7_shift_on_insert.2.2.1
      (ListGenome.mk ['-', 'A', 'A', '-'] [(1, 1, 3)] 1) 1 1 3 0 2
      (by decide) (by decide) (by decide) (by decide) (by decide)
    exact ⟨g2, h1, h2⟩
  · obtain ⟨g2, h1, h2⟩ := c7_shift_on_insert.2.2.2.1
      (ListGenome.mk ['-', 'A', 'A', '-'] [(1, 1, 3)] 1) 1 1 3 3 2
      (by decide) (by decide) (by decide) (by decide)
    exact ⟨g2, h1, h2⟩
  · obtain ⟨g2, h1, h2⟩ := c7_shift_on_insert.2.2.2.2.1
      (LinkedListGenome.mk ['-', 'A', 'A', '-', '-'] 5 [(1, 1, 3)] 1) 1 1 3 0 2
      (by decide) (by decide) (by decide) (by decide)
    exact ⟨g2, h1, h2⟩
  · obtain ⟨g2, h1, h2⟩ := c7_shift_on_insert.2.2.2.2.2
      (LinkedListGenome.mk ['-', 'A', 'A', '-', '-'] 5 [(1, 1, 3)] 1) 1 1 3 3 2
      (by decide) (by decide) (by decide) (by decide)
    exact ⟨g2, h1, h2⟩

/-- C9: for every script of operations on either variant, at every point
the reported length equals the length of the rendered string; the length
never decreases from one step to the next; a successful `insert_te` grows
it by exactly the inserted TE's length; and a `disable_te` step (whether it
disables, or raises and is absorbed by the driver) leaves it unchanged. -/
theorem c9_length_invariants :
    (∀ (n : Nat) (ops : List GOp),
      ((runList n ops).render.length : Int) = (runList n ops).len ∧
      ((runLinked n ops).render.length : Int) = (runLinked n ops).len) ∧
    (∀ (n : Nat) (ops : List GOp) (op : GOp),
      (runList n ops).len ≤ (runList n (ops ++ [op])).len ∧
      (runLinked n ops).len ≤ (runLinked n (ops ++ [op])).len) ∧
    (∀ (n : Nat) (ops : List GOp) (pos : Int) (le : Nat),
      (∃ r, (runList n ops).insert_te pos (le : Int) = .ok r) →
      (runList n (ops ++ [GOp.insert pos le])).len = (runList n ops).len + le) ∧
    (∀ (n : Nat) (ops : List GOp) (pos : Int) (le : Nat),
      (∃ r, (runLinked n ops).insert_te pos (le : Int) = .ok r) →
      (runLinked n (ops ++ [GOp.insert pos le])).len = (runLinked n ops).len + le) ∧
    (∀ (n : Nat) (ops : List GOp) (te : Int),
      (runList n (ops ++ [GOp.disable te])).len = (runList n ops).len ∧
      (runLinked n (ops ++ [GOp.disable te])).len = (runLinked n ops).len) := by
  refine ⟨?_, ?_, ?_, ?_, ?_⟩
  · intro n ops
    exact ⟨rfl, LinkedListGenome.len_render (runLinked_inv n ops)⟩
  · intro n ops op
    rw [runList_append_one, runLinked_append_one]
    constructor
    · have h := ListGenome.stepOp_len_mono (runList n ops) op
      simp only [ListGenome.len]
      omega
    · have h := LinkedListGenome.stepOp_len_mono_lk (runLinked n ops) op
        (runLinked_inv n ops)
      simp only [LinkedListGenome.len]
      exact h
  · intro n ops pos le h
    rw [runList_append_one]
    exact ListGenome.stepOp_insert_len _ pos le h
  · intro n ops pos le h
    rw [runLinked_append_one]
    have h2 := LinkedListGenome.stepOp_insert_len_lk (runLinked n ops) pos le h
    simp only [LinkedListGenome.len]
    exact h2
  · intro n ops te
    rw [runList_append_one, runLinked_append_one]
    refine ⟨ListGenome.stepOp_disable_len _ te, ?_⟩
    simp only [LinkedListGenome.len]
    exact LinkedListGenome.stepOp_disable_len_lk _ te

/-- C9, witness: on a fresh genome of length 2 a successful
`insert_te(0, 1)` grows both variants' length by exactly 1. -/
theorem c9_length_witness :
    ((∃ r, (runList 2 []).insert_te 0 ((1 : Nat) : Int) = .ok r) ∧
      (runList 2 ([] ++ [GOp.insert 0 1])).len = (runList 2 []).len + 1) ∧
    ((∃ r, (runLinked 2 []).insert_te 0 ((1 : Nat) : Int) = .ok r) ∧
      (runLinked 2 ([] ++ [GOp.insert 0 1])).len = (runLinked 2 []).len + 1) := by
  refine ⟨⟨⟨_, rfl⟩, ?_⟩, ⟨⟨_, rfl⟩, ?_⟩⟩
  · exact c9_length_invariants.2.2.1 2 [] 0 1 ⟨_, rfl⟩
  · exact c9_length_invariants.2.2.2.1 2 [] 0 1 ⟨_, rfl⟩

end TEG
